import Mathlib

/-!
Verification development for the Day 3 ("Gear Ratios") solver of the
repository: a shallow embedding of `src/gear_ratios.rs` together with
proofs of the specification's claims about it.

Modelling conventions:
* a line of input is a `List Char`; the whole input is a `List (List Char)`
  (file reading and `str::lines` splitting are outside the model);
* `usize` arithmetic is `Nat`; `checked_sub(1).unwrap_or(0)` is exactly
  truncated `Nat` subtraction `· - 1`;
* `i32` values are `Int`; the solvers' sums and products are modelled as
  exact integer arithmetic (machine overflow of `i32` addition, a panic in
  debug builds, is outside the model, matching the spec's reading);
* the input alphabet is ASCII (spec section 6), on which Rust's
  `char::is_numeric` agrees with `Char.isDigit` and byte indices agree
  with character indices;
* `BTreeSet` is modelled as a duplicate-free list (`List.insert`), and
  `BTreeMap` as an association list; the final answers are sums over the
  collection, so iteration order is irrelevant.
-/

set_option maxHeartbeats 1000000

namespace GearRatiosDay

/-- Character classes of the tokenizer `extract_schematic_line_parts`
(the local `CharType` enum in the source); `numeric` and `dot` carry the
start index of the current run. -/
inductive CharType where
  | numeric (start : Nat)
  | dot (start : Nat)
  | symbol
deriving DecidableEq, Repr

/-- `slice s a b` models the Rust string slice `&s[a..b]` of an ASCII line. -/
def slice (s : List Char) (a b : Nat) : List Char := (s.drop a).take (b - a)

/-- Rust `char::is_numeric`; on the ASCII schematic alphabet (spec section 6)
it coincides with `Char.isDigit`. -/
def isNumericChar (c : Char) : Bool := c.isDigit

/-- The tokenizer's `current_char_type` computation for character `c` at
index `i`. -/
def classify (c : Char) (i : Nat) : CharType :=
  if isNumericChar c then .numeric i else if c = '.' then .dot i else .symbol

/-- The loop body of `extract_schematic_line_parts`: `s` is the whole line,
the second argument the unconsumed suffix, `i` the current index, then the
`last_char_type` state and the accumulated parts. -/
def extractGo (s : List Char) :
    List Char → Nat → Option CharType → List (List Char) → List (List Char)
  | [], _i, last, ps =>
    match last with
    | some (.numeric st) => ps ++ [s.drop st]
    | some (.dot st) => ps ++ [s.drop st]
    | _ => ps
  | c :: rest, i, last, ps =>
    let cur := classify c i
    let ps1 :=
      match last with
      | some (.numeric st) =>
        match cur with
        | .numeric _ => ps
        | _ => ps ++ [slice s st i]
      | some (.dot st) =>
        match cur with
        | .dot _ => ps
        | _ => ps ++ [slice s st i]
      | _ => ps
    let ps2 :=
      match cur with
      | .symbol => ps1 ++ [slice s i (i + 1)]
      | _ => ps1
    let last' :=
      match cur with
      | .numeric _ =>
        match last with
        | some (.numeric _) => last
        | _ => some cur
      | .dot _ =>
        match last with
        | some (.dot _) => last
        | _ => some cur
      | .symbol => some cur
    extractGo s rest (i + 1) last' ps2

/-- `extract_schematic_line_parts`: split a line into maximal digit runs,
maximal dot runs and single symbol characters, in order. -/
def extract (s : List Char) : List (List Char) := extractGo s s 0 none []

/-- Numeric value of an ASCII digit. -/
def digitVal (c : Char) : Nat := c.toNat - 48

/-- Value of a digit run read in base 10. -/
def digitsToNat (s : List Char) : Nat := s.foldl (fun a c => a * 10 + digitVal c) 0

/-- Rust `str::parse::<i32>` restricted to the token shapes the tokenizer
produces (no sign prefix ever occurs: a `+` or `-` is a single-character
symbol token): a non-empty all-digit run parses to its value when it fits
in `i32`, anything else — including an overflowing digit run — is a parse
failure. -/
def parseI32 (s : List Char) : Option Int :=
  if s ≠ [] ∧ s.all Char.isDigit ∧ digitsToNat s ≤ 2147483647 then
    some (digitsToNat s)
  else none

/-- `SchematicComponent` of the source. -/
inductive SchematicComponent where
  | partNumber (n : Int)
  | symbol (c : Char)
deriving DecidableEq, Repr

/-- `PositionalSchematicComponent` of the source. -/
structure PositionalSchematicComponent where
  component : SchematicComponent
  line : Nat
  position : Nat
  length : Nat
deriving DecidableEq, Repr

abbrev PSC := PositionalSchematicComponent

/-- Part One's component for one non-dot token: a parse failure defaults to
`Symbol('*')` (the `map_or` in `PartOne::get_solution`). -/
def buildCompP1 (part : List Char) : SchematicComponent :=
  (parseI32 part).elim (.symbol '*') .partNumber

/-- Part One's token-to-component loop: tokens containing `'.'` are dropped
but still advance the column cursor by their length. -/
def buildLineP1Go (lineNum : Nat) : Nat → List (List Char) → List PSC
  | _pos, [] => []
  | pos, part :: rest =>
    if part.contains '.' then buildLineP1Go lineNum (pos + part.length) rest
    else
      { component := buildCompP1 part, line := lineNum, position := pos,
        length := part.length } :: buildLineP1Go lineNum (pos + part.length) rest

/-- The `current_line` built by `PartOne::get_solution` for one line. -/
def buildLineP1 (lineNum : Nat) (parts : List (List Char)) : List PSC :=
  buildLineP1Go lineNum 0 parts

/-- Part Two's component for one non-dot token: the error branch models the
`ok_or(anyhow!(..))?` on `chars().nth(0)` (reachable only for an empty
token); a parse failure keeps the token's first character. -/
def buildCompP2 (part : List Char) : Except String SchematicComponent :=
  match part.head? with
  | none => .error "Single char symbol parsed as 0 size string!"
  | some c => .ok ((parseI32 part).elim (.symbol c) .partNumber)

/-- Part Two's token-to-component loop (fallible). -/
def buildLineP2Go (lineNum : Nat) : Nat → List (List Char) → Except String (List PSC)
  | _pos, [] => .ok []
  | pos, part :: rest =>
    if part.contains '.' then buildLineP2Go lineNum (pos + part.length) rest
    else
      match buildCompP2 part with
      | .error e => .error e
      | .ok comp =>
        match buildLineP2Go lineNum (pos + part.length) rest with
        | .error e => .error e
        | .ok cs =>
          .ok ({ component := comp, line := lineNum, position := pos,
                 length := part.length } :: cs)

/-- The `current_line` built by `PartTwo::get_solution` for one line. -/
def buildLineP2 (lineNum : Nat) (parts : List (List Char)) : Except String (List PSC) :=
  buildLineP2Go lineNum 0 parts

/-- Total counterpart of `buildCompP2`; the two agree on every non-empty
token (`buildLineP2_eq_total`), and tokenizer tokens are never empty. -/
def buildCompP2Total (part : List Char) : SchematicComponent :=
  (parseI32 part).elim (.symbol (part.headD '?')) .partNumber

/-- Total counterpart of `buildLineP2Go`. -/
def buildLineP2TotalGo (lineNum : Nat) : Nat → List (List Char) → List PSC
  | _pos, [] => []
  | pos, part :: rest =>
    if part.contains '.' then buildLineP2TotalGo lineNum (pos + part.length) rest
    else
      { component := buildCompP2Total part, line := lineNum, position := pos,
        length := part.length } :: buildLineP2TotalGo lineNum (pos + part.length) rest

/-- Total counterpart of `buildLineP2`. -/
def buildLineP2Total (lineNum : Nat) (parts : List (List Char)) : List PSC :=
  buildLineP2TotalGo lineNum 0 parts

/-! ## Part One: validation loop -/

/-- Part One's same-line left check: the array-previous component, when it
exists, validates the number when it is a symbol sitting at the column just
before the number (`prev_component.position == component.position - 1`).
The `usize` subtraction is modelled by truncated `Nat` subtraction; it is
only reached with `0 < i`, where `component.position` is positive
(`buildLineP1_pos_pos`), so no underflow occurs. -/
def checkLeft (cur : List PSC) (i : Nat) (comp : PSC) : Bool :=
  if 0 < i then
    match cur.get? (i - 1) with
    | some pc =>
      match pc.component with
      | .symbol _ => decide (pc.position = comp.position - 1)
      | _ => false
    | none => false
  else false

/-- Part One's same-line right check: the array-next component, when it
exists, validates the number when it is a symbol at the column just past
the number's end. -/
def checkRight (cur : List PSC) (i : Nat) (comp : PSC) : Bool :=
  if i < cur.length - 1 then
    match cur.get? (i + 1) with
    | some pc =>
      match pc.component with
      | .symbol _ => decide (pc.position = comp.position + comp.length)
      | _ => false
    | none => false
  else false

/-- Part One's previous-line check for a number: any symbol of the previous
line whose column lies within `[position - 1, position + length]`
(`checked_sub(1).unwrap_or(0)` is truncated subtraction). -/
def numberPrevCheck (comp : PSC) (prevList : List PSC) : Bool :=
  prevList.any fun pc =>
    decide (comp.position - 1 ≤ pc.position) &&
    decide (pc.position ≤ comp.position + comp.length) &&
    (match pc.component with
     | .symbol _ => true
     | _ => false)

/-- One step of Part One's retroactive branch: a symbol on the current line
inserts every not-yet-collected number of the previous line whose span it
touches. -/
def retroStep (comp : PSC) (acc : List PSC) (pc : PSC) : List PSC :=
  if ¬ acc.contains pc ∧ pc.position - 1 ≤ comp.position ∧
      comp.position ≤ pc.position + pc.length then
    match pc.component with
    | .partNumber _ => List.insert pc acc
    | _ => acc
  else acc

/-- The body of Part One's per-component loop. -/
def stepP1 (prevList cur : List PSC) (i : Nat) (comp : PSC) (acc : List PSC) :
    List PSC :=
  match comp.component with
  | .partNumber _ =>
    if checkLeft cur i comp || checkRight cur i comp || numberPrevCheck comp prevList
    then List.insert comp acc
    else acc
  | .symbol _ => prevList.foldl (fun a pc => retroStep comp a pc) acc

/-- Part One's `for (line_pos, component) in current_line.iter().enumerate()`
loop; the second list argument is the unprocessed suffix of `cur`. -/
def processP1Go (prevList cur : List PSC) : Nat → List PSC → List PSC → List PSC
  | _i, [], acc => acc
  | i, comp :: rest, acc =>
    processP1Go prevList cur (i + 1) rest (stepP1 prevList cur i comp acc)

/-- Processing of one line in `PartOne::get_solution`. -/
def processLineP1 (prev? : Option (List PSC)) (cur : List PSC) (acc : List PSC) :
    List PSC :=
  processP1Go (prev?.getD []) cur 0 cur acc

/-- Part One's outer loop over the input lines: `k` is the line number,
`prev?` the previous line's components, `acc` the collected set. -/
def partOneLoop : Nat → Option (List PSC) → List PSC → List (List Char) → List PSC
  | _k, _prev?, acc, [] => acc
  | k, prev?, acc, line :: rest =>
    partOneLoop (k + 1) (some (buildLineP1 k (extract line)))
      (processLineP1 prev? (buildLineP1 k (extract line)) acc) rest

/-- The final fold of `PartOne::get_solution` collecting the numeric values
of the set's part-number components. -/
def collectNums (l : List PSC) : List Int :=
  l.foldl (fun acc c =>
    match c.component with
    | .partNumber n => acc ++ [n]
    | _ => acc) []

/-- `PartOne::get_solution` on the already-split lines of the input file. -/
def PartOne.getSolution (ls : List (List Char)) : Except String Int :=
  .ok (collectNums (partOneLoop 0 none [] ls)).sum

/-! ## Part Two: gear map -/

/-- The gear map `BTreeMap<(usize, usize), Vec<i32>>`, keyed by
(line, column) of each `*`. -/
abbrev GMap := List ((Nat × Nat) × List Int)

/-- `BTreeMap::insert`: replace the binding when present, add it otherwise
(appended; only the key set and each key's value matter downstream). -/
def mapInsert (κ : Nat × Nat) (v : List Int) : GMap → GMap
  | [] => [(κ, v)]
  | (κ', v') :: rest =>
    if κ' = κ then (κ, v) :: rest else (κ', v') :: mapInsert κ v rest

/-- `BTreeMap::get_mut(..).map(|r| r.push(n))`: append `n` to the value at
`κ` when the key is present, do nothing otherwise. -/
def mapPush (κ : Nat × Nat) (n : Int) : GMap → GMap
  | [] => []
  | (κ', v') :: rest =>
    if κ' = κ then (κ', v' ++ [n]) :: rest else (κ', v') :: mapPush κ n rest

/-- Lookup in the gear map. -/
def mapLookup (κ : Nat × Nat) : GMap → Option (List Int)
  | [] => none
  | (κ', v') :: rest => if κ' = κ then some v' else mapLookup κ rest

/-- Part Two's same-line left ratio of a `*`: the array-previous component,
when it is a number ending exactly at the star's column. -/
def gearLeft (cur : List PSC) (i : Nat) (comp : PSC) : Option Int :=
  if 0 < i then
    match cur.get? (i - 1) with
    | some pc =>
      match pc.component with
      | .partNumber n =>
        if pc.position + pc.length = comp.position then some n else none
      | _ => none
    | none => none
  else none

/-- Part Two's same-line right ratio of a `*`: the array-next component,
when it is a number starting no further than one past the star. -/
def gearRight (cur : List PSC) (i : Nat) (comp : PSC) : Option Int :=
  if i < cur.length - 1 then
    match cur.get? (i + 1) with
    | some pc =>
      match pc.component with
      | .partNumber n =>
        if pc.position ≤ comp.position + 1 then some n else none
      | _ => none
    | none => none
  else none

/-- Part Two's previous-line ratios of a `*`: the numbers of the previous
line whose span touches the star's column. -/
def gearAbove (comp : PSC) (prevList : List PSC) : List Int :=
  prevList.foldl (fun acc pc =>
    if comp.position ≤ pc.position + pc.length ∧ pc.position ≤ comp.position + 1 then
      match pc.component with
      | .partNumber n => acc ++ [n]
      | _ => acc
    else acc) []

/-- The body of Part Two's per-component loop: a `*` inserts its collected
ratios; a number registers itself with every `*` of the previous line whose
footprint it touches; other symbols do nothing. -/
def stepP2 (lineNum : Nat) (prevList cur : List PSC) (i : Nat) (comp : PSC)
    (gears : GMap) : GMap :=
  match comp.component with
  | .symbol '*' =>
    mapInsert (lineNum, comp.position)
      ((gearLeft cur i comp).toList ++ (gearRight cur i comp).toList ++
        gearAbove comp prevList) gears
  | .partNumber n =>
    prevList.foldl (fun g pc =>
      if comp.position - 1 ≤ pc.position ∧ pc.position ≤ comp.position + comp.length then
        match pc.component with
        | .symbol '*' => mapPush (pc.line, pc.position) n g
        | _ => g
      else g) gears
  | .symbol _ => gears

/-- Part Two's `for (component_index, component)` loop over one line. -/
def processP2Go (lineNum : Nat) (prevList cur : List PSC) :
    Nat → List PSC → GMap → GMap
  | _i, [], g => g
  | i, comp :: rest, g =>
    processP2Go lineNum prevList cur (i + 1) rest (stepP2 lineNum prevList cur i comp g)

/-- Processing of one line in `PartTwo::get_solution`. -/
def processLineP2 (lineNum : Nat) (prev? : Option (List PSC)) (cur : List PSC)
    (gears : GMap) : GMap :=
  processP2Go lineNum (prev?.getD []) cur 0 cur gears

/-- Part Two's outer loop over the input lines. -/
def partTwoLoop : Nat → Option (List PSC) → GMap → List (List Char) →
    Except String GMap
  | _k, _prev?, g, [] => .ok g
  | k, prev?, g, line :: rest =>
    match buildLineP2 k (extract line) with
    | .error e => .error e
    | .ok cur => partTwoLoop (k + 1) (some cur) (processLineP2 k prev? cur g) rest

/-- Total counterpart of `partTwoLoop` (the builder's error branch is
unreachable on tokenizer output). -/
def partTwoLoopTotal : Nat → Option (List PSC) → GMap → List (List Char) → GMap
  | _k, _prev?, g, [] => g
  | k, prev?, g, line :: rest =>
    partTwoLoopTotal (k + 1) (some (buildLineP2Total k (extract line)))
      (processLineP2 k prev? (buildLineP2Total k (extract line)) g) rest

/-- The final fold of `PartTwo::get_solution`: the product of every gear
whose collected list has length exactly 2, then the sum. -/
def gearRatioSum (gears : GMap) : Int :=
  (gears.foldl (fun acc kv =>
    if kv.2.length = 2 then acc ++ [kv.2.foldl (· * ·) 1] else acc) []).sum

/-- `PartTwo::get_solution` on the already-split lines of the input file. -/
def PartTwo.getSolution (ls : List (List Char)) : Except String Int :=
  match partTwoLoop 0 none [] ls with
  | .error e => .error e
  | .ok gears => .ok (gearRatioSum gears)

/-! ## Declarative spec-side definitions (from the spec's words, for the
refinement claims) -/

/-- Whether a component is a `PartNumber`. -/
def isNumberC (c : PSC) : Bool :=
  match c.component with
  | .partNumber _ => true
  | _ => false

/-- Whether a component is a `Symbol`. -/
def isSymbolC (c : PSC) : Bool :=
  match c.component with
  | .symbol _ => true
  | _ => false

/-- Whether a component is the symbol `*`. -/
def isStarC (c : PSC) : Bool :=
  match c.component with
  | .symbol ch => ch = '*'
  | _ => false

/-- Numeric value of a part-number component (0 for symbols). -/
def valueC (c : PSC) : Int :=
  match c.component with
  | .partNumber n => n
  | _ => 0

/-- Spec section 3's adjacency footprint, written from the spec's words:
component `s` (a symbol, occupying the single cell
(`s.line`, `s.position`)) lies in the closed rectangle of lines
`c.line - 1 .. c.line + 1` and columns
`c.position - 1 .. c.position + c.length`; truncated `Nat` subtraction
encodes the clamp of the rectangle at the grid border. -/
def specFootprintAdj (c s : PSC) : Bool :=
  decide (c.position - 1 ≤ s.position) &&
  decide (s.position ≤ c.position + c.length) &&
  decide (c.line - 1 ≤ s.line) &&
  decide (s.line ≤ c.line + 1)

/-- Per-line component lists of the whole input, Part One classification. -/
def linesCompsP1Go : Nat → List (List Char) → List (List PSC)
  | _k, [] => []
  | k, line :: rest => buildLineP1 k (extract line) :: linesCompsP1Go (k + 1) rest

/-- All components of the input, Part One classification. -/
def allCompsP1 (ls : List (List Char)) : List PSC := (linesCompsP1Go 0 ls).flatten

/-- Per-line component lists of the whole input, Part Two classification. -/
def linesCompsP2Go : Nat → List (List Char) → List (List PSC)
  | _k, [] => []
  | k, line :: rest => buildLineP2Total k (extract line) :: linesCompsP2Go (k + 1) rest

/-- All components of the input, Part Two classification. -/
def allCompsP2 (ls : List (List Char)) : List PSC := (linesCompsP2Go 0 ls).flatten

/-- Spec section 4.2, written from the spec's words: a number is a valid part
number iff some symbol component lies in its adjacency footprint. -/
def specValidPartNumber (all : List PSC) (c : PSC) : Bool :=
  isNumberC c && all.any fun s => isSymbolC s && specFootprintAdj c s

/-- The declarative Part One answer: the sum of the values of the distinct
valid number components. -/
def specPartOneSum (ls : List (List Char)) : Int :=
  (((allCompsP1 ls).filter (specValidPartNumber (allCompsP1 ls))).map valueC).sum

/-- Spec section 4.3, written from the spec's words: the number components
adjacent to a gear `g` (those whose footprint contains the gear's cell). -/
def specGearAdjNums (all : List PSC) (g : PSC) : List PSC :=
  all.filter fun c => isNumberC c && specFootprintAdj c g

/-- The declarative Part Two answer: over every `*` component, the product
of its adjacent numbers' values when there are exactly two of them. -/
def specPartTwoSum (ls : List (List Char)) : Int :=
  (((allCompsP2 ls).filter isStarC).map fun g =>
    if (specGearAdjNums (allCompsP2 ls) g).length = 2 then
      ((specGearAdjNums (allCompsP2 ls) g).map valueC).foldl (· * ·) 1
    else 0).sum

/-! ## Invariant predicates and further definitions used in statements -/

/-- The pending-run invariant of the tokenizer loop: everything before the
current run start has been emitted. -/
def PendInv (s : List Char) (i : Nat) : Option CharType → List (List Char) → Prop
  | some (.numeric st), ps => st < i ∧ ps.flatten = s.take st
  | some (.dot st), ps => st < i ∧ ps.flatten = s.take st
  | _, ps => ps.flatten = s.take i

/-- The run-start bound carried by the tokenizer state, for non-emptiness. -/
def PendSt (s : List Char) (i : Nat) : Option CharType → Prop
  | some (.numeric st) => st < i ∧ st < s.length
  | some (.dot st) => st < i ∧ st < s.length
  | _ => True

/-- The invariant of a built line: every component carries the line number
and a positive length, and spans are disjoint in increasing column order. -/
def LineInv (k : Nat) (l : List PSC) : Prop :=
  (∀ c ∈ l, c.line = k ∧ 1 ≤ c.length) ∧
  l.Pairwise fun a b => a.position + a.length ≤ b.position

/-- Column containment of column `p` in the padded span of component `c`. -/
def colAdjP (c : PSC) (p : Nat) : Prop :=
  c.position - 1 ≤ p ∧ p ≤ c.position + c.length

/-- The Prop form of the spec's footprint adjacency. -/
def specAdjP (c s : PSC) : Prop :=
  colAdjP c s.position ∧ c.line - 1 ≤ s.line ∧ s.line ≤ c.line + 1

/-- Invariant of the `prev_line` state at line `k` of either solver loop:
when present, it is a well-formed component list of line `k - 1`. -/
def PrevInv (k : Nat) (prev? : Option (List PSC)) : Prop :=
  (∀ c ∈ prev?.getD [], c.line + 1 = k ∧ 1 ≤ c.length) ∧
  (prev?.getD []).Pairwise fun a b => a.position + a.length ≤ b.position

/-- Components of the still-unprocessed lines, Part One classification,
numbering them from `k`. -/
def futureCompsP1 (k : Nat) (rest : List (List Char)) : List PSC :=
  (linesCompsP1Go k rest).flatten

/-- Values of the numbers of one line whose padded span covers column `p`
(the columns a gear at `p` collects from an adjacent line), in line order. -/
def adjNumVals (p : Nat) (l : List PSC) : List Int :=
  (l.filter fun c => isNumberC c && decide (c.position - 1 ≤ p) &&
    decide (p ≤ c.position + c.length)).map valueC

/-- Value of the number of one line ending exactly at column `p`, if any. -/
def leftVals (p : Nat) (l : List PSC) : List Int :=
  (l.filter fun c => isNumberC c && decide (c.position + c.length = p)).map valueC

/-- Value of the number of one line starting exactly at column `p + 1`, if any. -/
def rightVals (p : Nat) (l : List PSC) : List Int :=
  (l.filter fun c => isNumberC c && decide (c.position = p + 1)).map valueC

/-- The `*` component of one line at column `p`, if any. -/
def findStarAt (l : List PSC) (p : Nat) : Option PSC :=
  l.find? fun c => isStarC c && decide (c.position = p)

/-- Components of the first unprocessed line (empty when none remains). -/
def headCompsP2 (k : Nat) (rest : List (List Char)) : List PSC :=
  match rest with
  | [] => []
  | line :: _ => buildLineP2Total k (extract line)

/-- The final value the gear map associates with key `κ` once the lines
`rest` (numbered from `k`, with `prevList` the components of line `k - 1`)
have been processed: the left and right neighbour values, then the numbers
of the line above, then the numbers of the line below. -/
def gearEntryAt (prevList : List PSC) (k : Nat) (rest : List (List Char))
    (κ : Nat × Nat) : Option (List Int) :=
  match rest with
  | [] => none
  | line :: rest' =>
    if κ.1 = k then
      match findStarAt (buildLineP2Total k (extract line)) κ.2 with
      | some _ =>
        some (leftVals κ.2 (buildLineP2Total k (extract line)) ++
          rightVals κ.2 (buildLineP2Total k (extract line)) ++
          adjNumVals κ.2 prevList ++ adjNumVals κ.2 (headCompsP2 (k + 1) rest'))
      | none => none
    else gearEntryAt (buildLineP2Total k (extract line)) (k + 1) rest' κ

/-- Components of the still-unprocessed lines, Part Two classification. -/
def futureCompsP2 (k : Nat) (rest : List (List Char)) : List PSC :=
  (linesCompsP2Go k rest).flatten

/-- The contribution of one gear entry to the final sum: the product when
exactly two numbers were collected, `0` otherwise. -/
def entryScore : Option (List Int) → Int
  | some v => if v.length = 2 then v.foldl (· * ·) 1 else 0
  | none => 0

/-- The canonical 10-line example schematic of the puzzle statement. -/
def exampleLines : List (List Char) :=
  ["467..114..", "...*......", "..35..633.", "......#...", "617*......",
   ".....+.58.", "..592.....", "......755.", "...$.*....", ".664.598.."].map
    String.toList

/-! ## Tokenizer lemmas -/

theorem take_append_slice {s : List Char} {a b : Nat} (hab : a ≤ b) :
    s.take a ++ slice s a b = s.take b := by
  have h1 : slice s a b = (s.take b).drop a := by
    unfold slice
    rw [List.take_drop, Nat.add_sub_cancel' hab]
  have h2 : s.take a = (s.take b).take a := by
    rw [List.take_take, Nat.min_eq_left hab]
  rw [h1, h2, List.take_append_drop]

theorem slice_ne_nil {s : List Char} {a b : Nat} (h1 : a < b) (h2 : a < s.length) :
    slice s a b ≠ [] := by
  unfold slice
  intro h
  have := congrArg List.length h
  simp only [List.length_take, List.length_drop, List.length_nil] at this
  omega

theorem extractGo_flatten (s : List Char) :
    ∀ (rem : List Char) (i : Nat) (last : Option CharType) (ps : List (List Char)),
      rem = s.drop i → PendInv s i last ps →
      (extractGo s rem i last ps).flatten = s := by
  intro rem
  induction rem with
  | nil =>
    intro i last ps hrem hinv
    have hlen : s.length ≤ i := by
      by_contra h
      push_neg at h
      have := List.drop_eq_nil_iff.mp hrem.symm
      omega
    have htake : s.take i = s := List.take_of_length_le hlen
    match last with
    | none =>
      have hps : ps.flatten = s.take i := hinv
      simpa [extractGo, htake] using hps
    | some .symbol =>
      have hps : ps.flatten = s.take i := hinv
      simpa [extractGo, htake] using hps
    | some (.numeric st) =>
      obtain ⟨hst, hps⟩ := hinv
      simp [extractGo, hps, List.take_append_drop]
    | some (.dot st) =>
      obtain ⟨hst, hps⟩ := hinv
      simp [extractGo, hps, List.take_append_drop]
  | cons c rest ih =>
    intro i last ps hrem hinv
    have hi : i < s.length := by
      by_contra h
      push_neg at h
      rw [List.drop_eq_nil_of_le h] at hrem
      exact absurd hrem (by simp)
    have hrest : rest = s.drop (i + 1) := by
      have h1 : s.drop (i + 1) = (s.drop i).drop 1 := by
        rw [List.drop_drop, Nat.add_comm]
      rw [h1, ← hrem, List.drop_one, List.tail_cons]
    have hslice1 : slice s i (i + 1) = [c] := by
      unfold slice
      rw [Nat.add_sub_cancel_left, ← hrem]
      rfl
    have htake1 : s.take (i + 1) = s.take i ++ [c] := by
      rw [← take_append_slice (Nat.le_succ i), hslice1]
    by_cases hd : isNumericChar c
    · -- digit character: run continues or starts
      have hcl : classify c i = .numeric i := by simp [classify, hd]
      match last with
      | none =>
        have : ps.flatten = s.take i := hinv
        simp only [extractGo, hcl]
        exact ih (i + 1) (some (.numeric i)) ps hrest ⟨Nat.lt_succ_self i, this⟩
      | some .symbol =>
        have : ps.flatten = s.take i := hinv
        simp only [extractGo, hcl]
        exact ih (i + 1) (some (.numeric i)) ps hrest ⟨Nat.lt_succ_self i, this⟩
      | some (.numeric st) =>
        obtain ⟨hst, hps⟩ := hinv
        simp only [extractGo, hcl]
        exact ih (i + 1) (some (.numeric st)) ps hrest ⟨Nat.lt_succ_of_lt hst, hps⟩
      | some (.dot st) =>
        obtain ⟨hst, hps⟩ := hinv
        simp only [extractGo, hcl]
        refine ih (i + 1) (some (.numeric i)) (ps ++ [slice s st i]) hrest
          ⟨Nat.lt_succ_self i, ?_⟩
        rw [List.flatten_append, hps]
        simpa using take_append_slice (Nat.le_of_lt hst)
    · by_cases hdot : c = '.'
      · -- dot character
        have hcl : classify c i = .dot i := by
          subst hdot
          simp [classify, hd]
        match last with
        | none =>
          have : ps.flatten = s.take i := hinv
          simp only [extractGo, hcl]
          exact ih (i + 1) (some (.dot i)) ps hrest ⟨Nat.lt_succ_self i, this⟩
        | some .symbol =>
          have : ps.flatten = s.take i := hinv
          simp only [extractGo, hcl]
          exact ih (i + 1) (some (.dot i)) ps hrest ⟨Nat.lt_succ_self i, this⟩
        | some (.dot st) =>
          obtain ⟨hst, hps⟩ := hinv
          simp only [extractGo, hcl]
          exact ih (i + 1) (some (.dot st)) ps hrest ⟨Nat.lt_succ_of_lt hst, hps⟩
        | some (.numeric st) =>
          obtain ⟨hst, hps⟩ := hinv
          simp only [extractGo, hcl]
          refine ih (i + 1) (some (.dot i)) (ps ++ [slice s st i]) hrest
            ⟨Nat.lt_succ_self i, ?_⟩
          rw [List.flatten_append, hps]
          simpa using take_append_slice (Nat.le_of_lt hst)
      · -- symbol character
        have hcl : classify c i = .symbol := by simp [classify, hd, hdot]
        match last with
        | none =>
          have hps : ps.flatten = s.take i := hinv
          simp only [extractGo, hcl]
          refine ih (i + 1) (some .symbol) (ps ++ [slice s i (i + 1)]) hrest ?_
          show (ps ++ [slice s i (i + 1)]).flatten = s.take (i + 1)
          rw [List.flatten_append, hps, htake1, hslice1]
          simp
        | some .symbol =>
          have hps : ps.flatten = s.take i := hinv
          simp only [extractGo, hcl]
          refine ih (i + 1) (some .symbol) (ps ++ [slice s i (i + 1)]) hrest ?_
          show (ps ++ [slice s i (i + 1)]).flatten = s.take (i + 1)
          rw [List.flatten_append, hps, htake1, hslice1]
          simp
        | some (.numeric st) =>
          obtain ⟨hst, hps⟩ := hinv
          simp only [extractGo, hcl]
          refine ih (i + 1) (some .symbol) (ps ++ [slice s st i] ++ [slice s i (i + 1)])
            hrest ?_
          show (ps ++ [slice s st i] ++ [slice s i (i + 1)]).flatten = s.take (i + 1)
          rw [List.flatten_append, List.flatten_append, hps, htake1, hslice1]
          have := take_append_slice (s := s) (Nat.le_of_lt hst)
          simp [this]
        | some (.dot st) =>
          obtain ⟨hst, hps⟩ := hinv
          simp only [extractGo, hcl]
          refine ih (i + 1) (some .symbol) (ps ++ [slice s st i] ++ [slice s i (i + 1)])
            hrest ?_
          show (ps ++ [slice s st i] ++ [slice s i (i + 1)]).flatten = s.take (i + 1)
          rw [List.flatten_append, List.flatten_append, hps, htake1, hslice1]
          have := take_append_slice (s := s) (Nat.le_of_lt hst)
          simp [this]

/-- For every line, concatenating the extracted tokens reproduces the line. -/
theorem extract_flatten (s : List Char) : (extract s).flatten = s := by
  unfold extract
  exact extractGo_flatten s s 0 none [] rfl (by simp [PendInv])

theorem extractGo_ne_nil (s : List Char) :
    ∀ (rem : List Char) (i : Nat) (last : Option CharType) (ps : List (List Char)),
      rem = s.drop i → PendSt s i last → (∀ p ∈ ps, p ≠ []) →
      ∀ p ∈ extractGo s rem i last ps, p ≠ [] := by
  intro rem
  induction rem with
  | nil =>
    intro i last ps hrem hst hps
    match last with
    | none => simpa [extractGo] using hps
    | some .symbol => simpa [extractGo] using hps
    | some (.numeric st) =>
      have hst' : st < i ∧ st < s.length := hst
      simp only [extractGo]
      intro p hp
      rcases List.mem_append.mp hp with h | h
      · exact hps p h
      · have : p = s.drop st := by simpa using h
        subst this
        simp only [ne_eq, List.drop_eq_nil_iff]
        omega
    | some (.dot st) =>
      have hst' : st < i ∧ st < s.length := hst
      simp only [extractGo]
      intro p hp
      rcases List.mem_append.mp hp with h | h
      · exact hps p h
      · have : p = s.drop st := by simpa using h
        subst this
        simp only [ne_eq, List.drop_eq_nil_iff]
        omega
  | cons c rest ih =>
    intro i last ps hrem hst hps
    have hi : i < s.length := by
      by_contra h
      push_neg at h
      rw [List.drop_eq_nil_of_le h] at hrem
      exact absurd hrem (by simp)
    have hrest : rest = s.drop (i + 1) := by
      have h1 : s.drop (i + 1) = (s.drop i).drop 1 := by
        rw [List.drop_drop, Nat.add_comm]
      rw [h1, ← hrem, List.drop_one, List.tail_cons]
    have hmem1 : ∀ (st : Nat), st < i → st < s.length →
        ∀ p ∈ ps ++ [slice s st i], p ≠ [] := by
      intro st h1 h2 p hp
      rcases List.mem_append.mp hp with h | h
      · exact hps p h
      · have : p = slice s st i := by simpa using h
        subst this
        exact slice_ne_nil h1 h2
    have hmem2 : ∀ (qs : List (List Char)), (∀ p ∈ qs, p ≠ []) →
        ∀ p ∈ qs ++ [slice s i (i + 1)], p ≠ [] := by
      intro qs hqs p hp
      rcases List.mem_append.mp hp with h | h
      · exact hqs p h
      · have : p = slice s i (i + 1) := by simpa using h
        subst this
        exact slice_ne_nil (Nat.lt_succ_self i) hi
    by_cases hd : isNumericChar c
    · have hcl : classify c i = .numeric i := by simp [classify, hd]
      match last with
      | none =>
        simp only [extractGo, hcl]
        exact ih (i + 1) (some (.numeric i)) ps hrest ⟨Nat.lt_succ_self i, hi⟩ hps
      | some .symbol =>
        simp only [extractGo, hcl]
        exact ih (i + 1) (some (.numeric i)) ps hrest ⟨Nat.lt_succ_self i, hi⟩ hps
      | some (.numeric st) =>
        simp only [extractGo, hcl]
        exact ih (i + 1) (some (.numeric st)) ps hrest
          ⟨Nat.lt_succ_of_lt hst.1, hst.2⟩ hps
      | some (.dot st) =>
        simp only [extractGo, hcl]
        exact ih (i + 1) (some (.numeric i)) (ps ++ [slice s st i]) hrest
          ⟨Nat.lt_succ_self i, hi⟩ (hmem1 st hst.1 hst.2)
    · by_cases hdot : c = '.'
      · have hcl : classify c i = .dot i := by
          subst hdot
          simp [classify, hd]
        match last with
        | none =>
          simp only [extractGo, hcl]
          exact ih (i + 1) (some (.dot i)) ps hrest ⟨Nat.lt_succ_self i, hi⟩ hps
        | some .symbol =>
          simp only [extractGo, hcl]
          exact ih (i + 1) (some (.dot i)) ps hrest ⟨Nat.lt_succ_self i, hi⟩ hps
        | some (.dot st) =>
          simp only [extractGo, hcl]
          exact ih (i + 1) (some (.dot st)) ps hrest
            ⟨Nat.lt_succ_of_lt hst.1, hst.2⟩ hps
        | some (.numeric st) =>
          simp only [extractGo, hcl]
          exact ih (i + 1) (some (.dot i)) (ps ++ [slice s st i]) hrest
            ⟨Nat.lt_succ_self i, hi⟩ (hmem1 st hst.1 hst.2)
      · have hcl : classify c i = .symbol := by simp [classify, hd, hdot]
        match last with
        | none =>
          simp only [extractGo, hcl]
          exact ih (i + 1) (some .symbol) (ps ++ [slice s i (i + 1)]) hrest trivial
            (hmem2 ps hps)
        | some .symbol =>
          simp only [extractGo, hcl]
          exact ih (i + 1) (some .symbol) (ps ++ [slice s i (i + 1)]) hrest trivial
            (hmem2 ps hps)
        | some (.numeric st) =>
          simp only [extractGo, hcl]
          exact ih (i + 1) (some .symbol)
            (ps ++ [slice s st i] ++ [slice s i (i + 1)]) hrest trivial
            (hmem2 _ (hmem1 st hst.1 hst.2))
        | some (.dot st) =>
          simp only [extractGo, hcl]
          exact ih (i + 1) (some .symbol)
            (ps ++ [slice s st i] ++ [slice s i (i + 1)]) hrest trivial
            (hmem2 _ (hmem1 st hst.1 hst.2))

/-- Tokenizer tokens are never empty. -/
theorem extract_ne_nil (s : List Char) : ∀ p ∈ extract s, p ≠ [] := by
  unfold extract
  exact extractGo_ne_nil s s 0 none [] rfl trivial (by simp)

/-! ## Specialised tokenizer runs (single-run lines) -/

theorem extractGo_all_digits (s : List Char) :
    ∀ (rest : List Char) (i st : Nat) (ps : List (List Char)),
      (∀ c ∈ rest, isNumericChar c = true) →
      extractGo s rest i (some (.numeric st)) ps = ps ++ [s.drop st] := by
  intro rest
  induction rest with
  | nil => intro i st ps _; simp [extractGo]
  | cons c r ih =>
    intro i st ps hall
    have hd : isNumericChar c := hall c (by simp)
    have hcl : classify c i = .numeric i := by simp [classify, hd]
    simp only [extractGo, hcl]
    exact ih (i + 1) st ps fun x hx => hall x (by simp [hx])

theorem extractGo_all_dots (s : List Char) :
    ∀ (rest : List Char) (i st : Nat) (ps : List (List Char)),
      (∀ c ∈ rest, c = '.') →
      extractGo s rest i (some (.dot st)) ps = ps ++ [s.drop st] := by
  intro rest
  induction rest with
  | nil => intro i st ps _; simp [extractGo]
  | cons c r ih =>
    intro i st ps hall
    have hc : c = '.' := hall c (by simp)
    have hcl : classify c i = .dot i := by
      subst hc
      simp [classify, isNumericChar]
    simp only [extractGo, hcl]
    exact ih (i + 1) st ps fun x hx => hall x (by simp [hx])

/-- A non-empty all-digit line is one single token. -/
theorem extract_all_digits {s : List Char} (h1 : s ≠ [])
    (h2 : ∀ c ∈ s, isNumericChar c = true) : extract s = [s] := by
  match s with
  | c :: rest =>
    have hd : isNumericChar c := h2 c (by simp)
    have hcl : classify c 0 = .numeric 0 := by simp [classify, hd]
    unfold extract
    simp only [extractGo, hcl]
    rw [extractGo_all_digits (c :: rest) rest 1 0 [] fun x hx => h2 x (by simp [hx])]
    simp

/-- A non-empty all-dot line is one single token. -/
theorem extract_all_dots {s : List Char} (h1 : s ≠ [])
    (h2 : ∀ c ∈ s, c = '.') : extract s = [s] := by
  match s with
  | c :: rest =>
    have hc : c = '.' := h2 c (by simp)
    have hcl : classify c 0 = .dot 0 := by
      subst hc
      simp [classify, isNumericChar]
    unfold extract
    simp only [extractGo, hcl]
    rw [extractGo_all_dots (c :: rest) rest 1 0 [] fun x hx => h2 x (by simp [hx])]
    simp

/-- A single-symbol line is one single token. -/
theorem extract_single_symbol {c : Char} (h1 : isNumericChar c = false)
    (h2 : ¬ c = '.') : extract [c] = [[c]] := by
  have hcl : classify c 0 = .symbol := by simp [classify, h1, h2]
  unfold extract
  simp only [extractGo, hcl]
  simp [extractGo, slice]

/-! ## Builder invariants -/

theorem buildLineP1Go_inv (k : Nat) :
    ∀ (parts : List (List Char)) (pos : Nat), (∀ p ∈ parts, p ≠ []) →
      (∀ c ∈ buildLineP1Go k pos parts,
        c.line = k ∧ 1 ≤ c.length ∧ pos ≤ c.position) ∧
      (buildLineP1Go k pos parts).Pairwise
        (fun a b => a.position + a.length ≤ b.position) := by
  intro parts
  induction parts with
  | nil => intro pos _; simp [buildLineP1Go]
  | cons part rest ih =>
    intro pos hne
    have hrest : ∀ p ∈ rest, p ≠ [] := fun p hp => hne p (by simp [hp])
    have hpart : 1 ≤ part.length :=
      List.length_pos.mpr (hne part (by simp))
    by_cases h : part.contains '.'
    · simp only [buildLineP1Go, if_pos h]
      obtain ⟨h1, h2⟩ := ih (pos + part.length) hrest
      exact ⟨fun c hc => by have := h1 c hc; exact ⟨this.1, this.2.1, by omega⟩, h2⟩
    · simp only [buildLineP1Go, if_neg h]
      obtain ⟨h1, h2⟩ := ih (pos + part.length) hrest
      constructor
      · intro c hc
        rcases List.mem_cons.mp hc with h3 | h3
        · subst h3
          exact ⟨rfl, hpart, Nat.le_refl pos⟩
        · have := h1 c h3
          exact ⟨this.1, this.2.1, by omega⟩
      · rw [List.pairwise_cons]
        refine ⟨fun b hb => ?_, h2⟩
        have := (h1 b hb).2.2
        simpa using this

theorem buildLineP2TotalGo_inv (k : Nat) :
    ∀ (parts : List (List Char)) (pos : Nat), (∀ p ∈ parts, p ≠ []) →
      (∀ c ∈ buildLineP2TotalGo k pos parts,
        c.line = k ∧ 1 ≤ c.length ∧ pos ≤ c.position) ∧
      (buildLineP2TotalGo k pos parts).Pairwise
        (fun a b => a.position + a.length ≤ b.position) := by
  intro parts
  induction parts with
  | nil => intro pos _; simp [buildLineP2TotalGo]
  | cons part rest ih =>
    intro pos hne
    have hrest : ∀ p ∈ rest, p ≠ [] := fun p hp => hne p (by simp [hp])
    have hpart : 1 ≤ part.length :=
      List.length_pos.mpr (hne part (by simp))
    by_cases h : part.contains '.'
    · simp only [buildLineP2TotalGo, if_pos h]
      obtain ⟨h1, h2⟩ := ih (pos + part.length) hrest
      exact ⟨fun c hc => by have := h1 c hc; exact ⟨this.1, this.2.1, by omega⟩, h2⟩
    · simp only [buildLineP2TotalGo, if_neg h]
      obtain ⟨h1, h2⟩ := ih (pos + part.length) hrest
      constructor
      · intro c hc
        rcases List.mem_cons.mp hc with h3 | h3
        · subst h3
          exact ⟨rfl, hpart, Nat.le_refl pos⟩
        · have := h1 c h3
          exact ⟨this.1, this.2.1, by omega⟩
      · rw [List.pairwise_cons]
        refine ⟨fun b hb => ?_, h2⟩
        have := (h1 b hb).2.2
        simpa using this

/-- The built line of Part One satisfies the line invariant. -/
theorem lineInvP1 (k : Nat) (line : List Char) :
    LineInv k (buildLineP1 k (extract line)) := by
  obtain ⟨h1, h2⟩ := buildLineP1Go_inv k (extract line) 0 (extract_ne_nil line)
  exact ⟨fun c hc => ⟨(h1 c hc).1, (h1 c hc).2.1⟩, h2⟩

/-- The built line of Part Two satisfies the line invariant. -/
theorem lineInvP2 (k : Nat) (line : List Char) :
    LineInv k (buildLineP2Total k (extract line)) := by
  obtain ⟨h1, h2⟩ := buildLineP2TotalGo_inv k (extract line) 0 (extract_ne_nil line)
  exact ⟨fun c hc => ⟨(h1 c hc).1, (h1 c hc).2.1⟩, h2⟩

/-- Positions in a line are pairwise distinct, hence so are the components. -/
theorem LineInv.nodup {k : Nat} {l : List PSC} (h : LineInv k l) : l.Nodup := by
  refine h.2.imp_of_mem ?_
  intro a b ha _hb hab
  intro he
  have h1 : 1 ≤ a.length := (h.1 a ha).2
  have : a.position + a.length ≤ a.position := he ▸ hab
  omega

/-- In a built line, every component after the first starts at a positive
column (hence the `usize` subtraction `position - 1` cannot underflow). -/
theorem LineInv.pos_pos {k : Nat} {l : List PSC} (h : LineInv k l)
    {i : Nat} {c : PSC} (hc : l.get? i = some c) (hi : 0 < i) : 0 < c.position := by
  have hlen : i < l.length := List.get?_eq_some.mp hc |>.1
  have h0 : 0 < l.length := by omega
  have hrel := List.pairwise_iff_getElem.mp h.2 0 i h0 hlen hi
  have h1 : 1 ≤ l[0].length := (h.1 l[0] (List.getElem_mem h0)).2
  have heq : l[i] = c := by
    have := List.get?_eq_some.mp hc
    obtain ⟨hl, he⟩ := this
    simpa [List.get_eq_getElem] using he
  rw [heq] at hrel
  omega

/-! ## Part Two builder totality -/

theorem buildCompP2_ok {part : List Char} (h : part ≠ []) :
    buildCompP2 part = .ok (buildCompP2Total part) := by
  match part with
  | [] => exact absurd rfl h
  | c :: rest => simp [buildCompP2, buildCompP2Total]

theorem buildLineP2Go_ok (k : Nat) :
    ∀ (parts : List (List Char)) (pos : Nat), (∀ p ∈ parts, p ≠ []) →
      buildLineP2Go k pos parts = .ok (buildLineP2TotalGo k pos parts) := by
  intro parts
  induction parts with
  | nil => intro pos _; simp [buildLineP2Go, buildLineP2TotalGo]
  | cons part rest ih =>
    intro pos hne
    have hrest : ∀ p ∈ rest, p ≠ [] := fun p hp => hne p (by simp [hp])
    by_cases h : part.contains '.'
    · simp only [buildLineP2Go, buildLineP2TotalGo, if_pos h]
      exact ih (pos + part.length) hrest
    · simp only [buildLineP2Go, buildLineP2TotalGo, if_neg h]
      rw [buildCompP2_ok (hne part (by simp)), ih (pos + part.length) hrest]

/-- On tokenizer output the fallible Part Two builder never fails. -/
theorem buildLineP2_extract (k : Nat) (line : List Char) :
    buildLineP2 k (extract line) = .ok (buildLineP2Total k (extract line)) :=
  buildLineP2Go_ok k (extract line) 0 (extract_ne_nil line)

/-- Part Two's outer loop never fails. -/
theorem partTwoLoop_ok :
    ∀ (ls : List (List Char)) (k : Nat) (prev? : Option (List PSC)) (g : GMap),
      partTwoLoop k prev? g ls = .ok (partTwoLoopTotal k prev? g ls) := by
  intro ls
  induction ls with
  | nil => intro k prev? g; rfl
  | cons line rest ih =>
    intro k prev? g
    simp only [partTwoLoop, partTwoLoopTotal, buildLineP2_extract]
    exact ih (k + 1) _ _

/-! ## Token spans of built components -/

theorem buildLineP1Go_span (k : Nat) :
    ∀ (parts : List (List Char)) (pos : Nat) (line : List Char),
      line.drop pos = parts.flatten →
      ∀ c ∈ buildLineP1Go k pos parts,
        ∃ part, part.contains '.' = false ∧
          slice line c.position (c.position + c.length) = part ∧
          c.length = part.length ∧ c.component = buildCompP1 part := by
  intro parts
  induction parts with
  | nil => intro pos line _ c hc; simp [buildLineP1Go] at hc
  | cons part rest ih =>
    intro pos line hline c hc
    have hrec : line.drop (pos + part.length) = rest.flatten := by
      have h1 : line.drop (pos + part.length) = (line.drop pos).drop part.length := by
        rw [List.drop_drop, Nat.add_comm]
      rw [h1, hline, List.flatten_cons, List.drop_left]
    by_cases h : part.contains '.'
    · simp only [buildLineP1Go, if_pos h] at hc
      exact ih (pos + part.length) line hrec c hc
    · simp only [buildLineP1Go, if_neg h] at hc
      rcases List.mem_cons.mp hc with h1 | h1
      · subst h1
        refine ⟨part, by simpa using h, ?_, rfl, rfl⟩
        show slice line pos (pos + part.length) = part
        unfold slice
        rw [Nat.add_sub_cancel_left, hline, List.flatten_cons, List.take_left]
      · exact ih (pos + part.length) line hrec c h1

theorem buildLineP2TotalGo_span (k : Nat) :
    ∀ (parts : List (List Char)) (pos : Nat) (line : List Char),
      line.drop pos = parts.flatten →
      ∀ c ∈ buildLineP2TotalGo k pos parts,
        ∃ part, part.contains '.' = false ∧
          slice line c.position (c.position + c.length) = part ∧
          c.length = part.length ∧ c.component = buildCompP2Total part := by
  intro parts
  induction parts with
  | nil => intro pos line _ c hc; simp [buildLineP2TotalGo] at hc
  | cons part rest ih =>
    intro pos line hline c hc
    have hrec : line.drop (pos + part.length) = rest.flatten := by
      have h1 : line.drop (pos + part.length) = (line.drop pos).drop part.length := by
        rw [List.drop_drop, Nat.add_comm]
      rw [h1, hline, List.flatten_cons, List.drop_left]
    by_cases h : part.contains '.'
    · simp only [buildLineP2TotalGo, if_pos h] at hc
      exact ih (pos + part.length) line hrec c hc
    · simp only [buildLineP2TotalGo, if_neg h] at hc
      rcases List.mem_cons.mp hc with h1 | h1
      · subst h1
        refine ⟨part, by simpa using h, ?_, rfl, rfl⟩
        show slice line pos (pos + part.length) = part
        unfold slice
        rw [Nat.add_sub_cancel_left, hline, List.flatten_cons, List.take_left]
      · exact ih (pos + part.length) line hrec c h1

/-! ## Adjacency predicates (Prop level) -/

theorem specFootprintAdj_iff {c s : PSC} :
    specFootprintAdj c s = true ↔ specAdjP c s := by
  simp [specFootprintAdj, specAdjP, colAdjP, and_assoc]

theorem num_ne_sym {x s : PSC} (h1 : isNumberC x = true) (h2 : isSymbolC s = true) :
    x ≠ s := by
  intro h
  rw [h] at h1
  unfold isNumberC at h1
  unfold isSymbolC at h2
  match hx : s.component with
  | .partNumber n => rw [hx] at h2; simp at h2
  | .symbol ch => rw [hx] at h1; simp at h1

/-- Two distinct components of one line have disjoint spans. -/
theorem LineInv.not_overlap {k : Nat} {l : List PSC} (h : LineInv k l) {a b : PSC}
    (ha : a ∈ l) (hb : b ∈ l) (hne : a ≠ b) :
    a.position + a.length ≤ b.position ∨ b.position + b.length ≤ a.position := by
  obtain ⟨i, hi, rfl⟩ := List.mem_iff_getElem.mp ha
  obtain ⟨j, hj, rfl⟩ := List.mem_iff_getElem.mp hb
  rcases Nat.lt_trichotomy i j with hij | hij | hij
  · exact Or.inl (List.pairwise_iff_getElem.mp h.2 i j hi hj hij)
  · subst hij
    exact absurd rfl hne
  · exact Or.inr (List.pairwise_iff_getElem.mp h.2 j i hj hi hij)

/-- On one line, a symbol is column-adjacent to a number exactly when it
touches the number's left or right end. -/
theorem touch_iff_colAdj {k : Nat} {l : List PSC} (h : LineInv k l) {x s : PSC}
    (hx : x ∈ l) (hs : s ∈ l) (hnum : isNumberC x = true) (hsym : isSymbolC s = true) :
    (s.position + 1 = x.position ∨ s.position = x.position + x.length) ↔
      colAdjP x s.position := by
  constructor
  · rintro (h1 | h1)
    · exact ⟨by omega, by omega⟩
    · exact ⟨by omega, by omega⟩
  · rintro ⟨h1, h2⟩
    have hne := num_ne_sym hnum hsym
    have hlen_s : 1 ≤ s.length := (h.1 s hs).2
    have hlen_x : 1 ≤ x.length := (h.1 x hx).2
    rcases h.not_overlap hx hs hne with h3 | h3
    · right; omega
    · left; omega

/-! ## Part One: same-line check equivalences -/

theorem checkLeft_iff {k : Nat} {cur : List PSC} (hinv : LineInv k cur)
    {i : Nat} {comp : PSC} (hc : cur.get? i = some comp) :
    checkLeft cur i comp = true ↔
      ∃ s ∈ cur, isSymbolC s = true ∧ s.position + 1 = comp.position := by
  have hilt : i < cur.length := (List.get?_eq_some.mp hc).1
  constructor
  · intro h
    unfold checkLeft at h
    by_cases hi : 0 < i
    · rw [if_pos hi] at h
      have hi1 : i - 1 < cur.length := by omega
      have hget : cur.get? (i - 1) = some cur[i - 1] := by
        rw [List.get?_eq_getElem?, List.getElem?_eq_getElem hi1]
      rw [hget] at h
      have h' : (match cur[i - 1].component with
          | SchematicComponent.symbol _ => decide (cur[i - 1].position = comp.position - 1)
          | _ => false) = true := h
      match hcomp : cur[i - 1].component with
      | .symbol ch =>
        rw [hcomp] at h'
        have hpos : cur[i - 1].position = comp.position - 1 := by
          simpa using h'
        have hmem : cur[i - 1] ∈ cur := List.getElem_mem hi1
        have hcp : 0 < comp.position := hinv.pos_pos hc hi
        refine ⟨cur[i - 1], hmem, by simp [isSymbolC, hcomp], by omega⟩
      | .partNumber n => rw [hcomp] at h'; exact absurd h' (by simp)
    · rw [if_neg hi] at h
      exact absurd h (by simp)
  · rintro ⟨s, hs, hsym, hpos⟩
    obtain ⟨j, hj, hsj⟩ := List.mem_iff_getElem.mp hs
    have hsj' : cur.get? j = some s := by
      rw [List.get?_eq_getElem?, List.getElem?_eq_getElem hj, hsj]
    have hcomp_i : cur[i] = comp := by
      have := (List.get?_eq_some.mp hc).2
      simpa [List.get_eq_getElem] using this
    have hspos : s.position < comp.position := by omega
    have hji : j < i := by
      by_contra hji
      push_neg at hji
      rcases Nat.eq_or_lt_of_le hji with he | hlt
      · rw [he] at hc
        rw [hc] at hsj'
        have heq : comp = s := Option.some.inj hsj'
        rw [heq] at hspos
        omega
      · have := List.pairwise_iff_getElem.mp hinv.2 i j hilt hj hlt
        rw [hcomp_i, hsj] at this
        have hlen : 1 ≤ comp.length := by
          have := hinv.1 comp (by rw [← hcomp_i]; exact List.getElem_mem hilt)
          exact this.2
        omega
    have hj_eq : j = i - 1 := by
      by_contra hne
      have hjlt : j < i - 1 := by omega
      have hi1 : i - 1 < cur.length := by omega
      have h1 := List.pairwise_iff_getElem.mp hinv.2 j (i - 1) hj hi1 hjlt
      have h2 := List.pairwise_iff_getElem.mp hinv.2 (i - 1) i hi1 hilt (by omega)
      rw [hsj] at h1
      rw [hcomp_i] at h2
      have hlen1 : 1 ≤ cur[i - 1].length := (hinv.1 _ (List.getElem_mem hi1)).2
      have hlen_s : 1 ≤ s.length := (hinv.1 s hs).2
      omega
    unfold checkLeft
    rw [if_pos (by omega : 0 < i)]
    have hget : cur.get? (i - 1) = some s := by
      rw [hj_eq] at hsj'
      exact hsj'
    rw [hget]
    show (match s.component with
      | SchematicComponent.symbol _ => decide (s.position = comp.position - 1)
      | _ => false) = true
    unfold isSymbolC at hsym
    match hcomp : s.component with
    | .symbol ch =>
      simp only [decide_eq_true_eq]
      omega
    | .partNumber n => rw [hcomp] at hsym; exact absurd hsym (by simp)

theorem checkRight_iff {k : Nat} {cur : List PSC} (hinv : LineInv k cur)
    {i : Nat} {comp : PSC} (hc : cur.get? i = some comp) :
    checkRight cur i comp = true ↔
      ∃ s ∈ cur, isSymbolC s = true ∧ s.position = comp.position + comp.length := by
  have hilt : i < cur.length := (List.get?_eq_some.mp hc).1
  have hcomp_i : cur[i] = comp := by
    have := (List.get?_eq_some.mp hc).2
    simpa [List.get_eq_getElem] using this
  have hlen : 1 ≤ comp.length := by
    have := hinv.1 comp (by rw [← hcomp_i]; exact List.getElem_mem hilt)
    exact this.2
  constructor
  · intro h
    unfold checkRight at h
    by_cases hi : i < cur.length - 1
    · rw [if_pos hi] at h
      have hi1 : i + 1 < cur.length := by omega
      have hget : cur.get? (i + 1) = some cur[i + 1] := by
        rw [List.get?_eq_getElem?, List.getElem?_eq_getElem hi1]
      rw [hget] at h
      have h' : (match cur[i + 1].component with
          | SchematicComponent.symbol _ =>
            decide (cur[i + 1].position = comp.position + comp.length)
          | _ => false) = true := h
      match hcomp : cur[i + 1].component with
      | .symbol ch =>
        rw [hcomp] at h'
        have hpos : cur[i + 1].position = comp.position + comp.length := by
          simpa using h'
        exact ⟨cur[i + 1], List.getElem_mem hi1, by simp [isSymbolC, hcomp], hpos⟩
      | .partNumber n => rw [hcomp] at h'; exact absurd h' (by simp)
    · rw [if_neg hi] at h
      exact absurd h (by simp)
  · rintro ⟨s, hs, hsym, hpos⟩
    obtain ⟨j, hj, hsj⟩ := List.mem_iff_getElem.mp hs
    have hsj' : cur.get? j = some s := by
      rw [List.get?_eq_getElem?, List.getElem?_eq_getElem hj, hsj]
    have hij : i < j := by
      by_contra hij
      push_neg at hij
      rcases Nat.eq_or_lt_of_le hij with he | hlt
      · rw [← he] at hc
        rw [hc] at hsj'
        have heq : comp = s := Option.some.inj hsj'
        rw [heq] at hpos hlen
        omega
      · have := List.pairwise_iff_getElem.mp hinv.2 j i hj hilt hlt
        rw [hcomp_i, hsj] at this
        have hlen_s : 1 ≤ s.length := (hinv.1 s hs).2
        omega
    have hj_eq : j = i + 1 := by
      by_contra hne
      have hjgt : i + 1 < j := by omega
      have hi1 : i + 1 < cur.length := by omega
      have h1 := List.pairwise_iff_getElem.mp hinv.2 i (i + 1) hilt hi1 (by omega)
      have h2 := List.pairwise_iff_getElem.mp hinv.2 (i + 1) j hi1 hj hjgt
      rw [hcomp_i] at h1
      rw [hsj] at h2
      have hlen1 : 1 ≤ cur[i + 1].length := (hinv.1 _ (List.getElem_mem hi1)).2
      omega
    unfold checkRight
    rw [if_pos (by omega : i < cur.length - 1)]
    have hget : cur.get? (i + 1) = some s := by
      rw [hj_eq] at hsj'
      exact hsj'
    rw [hget]
    show (match s.component with
      | SchematicComponent.symbol _ => decide (s.position = comp.position + comp.length)
      | _ => false) = true
    unfold isSymbolC at hsym
    match hcomp : s.component with
    | .symbol ch =>
      simp only [decide_eq_true_eq]
      omega
    | .partNumber n => rw [hcomp] at hsym; exact absurd hsym (by simp)

/-! ## Part One: membership of the collected set -/

theorem retroStep_mem (comp : PSC) (acc : List PSC) (pc : PSC) (x : PSC) :
    x ∈ retroStep comp acc pc ↔
      x ∈ acc ∨ (x = pc ∧ isNumberC pc = true ∧
        pc.position - 1 ≤ comp.position ∧ comp.position ≤ pc.position + pc.length) := by
  unfold retroStep
  by_cases hr1 : pc.position - 1 ≤ comp.position
  case neg =>
    rw [if_neg (by tauto)]
    constructor
    · exact Or.inl
    · rintro (h | ⟨_, _, h3, _⟩)
      · exact h
      · exact absurd h3 hr1
  case pos =>
  by_cases hr2 : comp.position ≤ pc.position + pc.length
  case neg =>
    rw [if_neg (by tauto)]
    constructor
    · exact Or.inl
    · rintro (h | ⟨_, _, _, h4⟩)
      · exact h
      · exact absurd h4 hr2
  case pos =>
  by_cases hmem : pc ∈ acc
  · have hcont : acc.contains pc = true := List.elem_iff.mpr hmem
    rw [if_neg (fun hcond => hcond.1 hcont)]
    constructor
    · exact Or.inl
    · rintro (h | ⟨rfl, _, _, _⟩)
      · exact h
      · exact hmem
  · have hcont : ¬ (acc.contains pc = true) := fun h => hmem (List.elem_iff.mp h)
    rw [if_pos ⟨hcont, hr1, hr2⟩]
    match hpc : pc.component with
    | .partNumber n =>
      rw [List.mem_insert_iff]
      constructor
      · rintro (h | h)
        · exact Or.inr ⟨h, by simp [isNumberC, hpc], hr1, hr2⟩
        · exact Or.inl h
      · rintro (h | ⟨h1, _⟩)
        · exact Or.inr h
        · exact Or.inl h1
    | .symbol ch =>
      constructor
      · exact Or.inl
      · rintro (h | ⟨_, h2, _⟩)
        · exact h
        · simp [isNumberC, hpc] at h2

theorem retroFold_mem (comp : PSC) :
    ∀ (pl : List PSC) (acc : List PSC) (x : PSC),
      x ∈ pl.foldl (fun a pc => retroStep comp a pc) acc ↔
        x ∈ acc ∨ ∃ pc ∈ pl, x = pc ∧ isNumberC pc = true ∧
          pc.position - 1 ≤ comp.position ∧ comp.position ≤ pc.position + pc.length := by
  intro pl
  induction pl with
  | nil => intro acc x; simp
  | cons pc rest ih =>
    intro acc x
    rw [List.foldl_cons, ih, retroStep_mem]
    constructor
    · rintro ((h | h) | ⟨pc', hpc', h⟩)
      · exact Or.inl h
      · exact Or.inr ⟨pc, by simp, h⟩
      · exact Or.inr ⟨pc', by simp [hpc'], h⟩
    · rintro (h | ⟨pc', hpc', h⟩)
      · exact Or.inl (Or.inl h)
      · rcases List.mem_cons.mp hpc' with he | hm
        · subst he
          exact Or.inl (Or.inr h)
        · exact Or.inr ⟨pc', hm, h⟩

theorem numberPrevCheck_iff (comp : PSC) (pl : List PSC) :
    numberPrevCheck comp pl = true ↔
      ∃ s ∈ pl, isSymbolC s = true ∧
        comp.position - 1 ≤ s.position ∧ s.position ≤ comp.position + comp.length := by
  unfold numberPrevCheck
  rw [List.any_eq_true]
  constructor
  · rintro ⟨pc, hpc, h⟩
    simp only [Bool.and_eq_true, decide_eq_true_eq] at h
    obtain ⟨⟨ha, hb⟩, hcc⟩ := h
    exact ⟨pc, hpc, hcc, ha, hb⟩
  · rintro ⟨s, hs, h1, h2, h3⟩
    refine ⟨s, hs, ?_⟩
    simp only [Bool.and_eq_true, decide_eq_true_eq]
    exact ⟨⟨h2, h3⟩, h1⟩

theorem stepP1_mem {k : Nat} {prevList cur : List PSC} (hinv : LineInv k cur)
    {i : Nat} {comp : PSC} (hc : cur.get? i = some comp) (acc : List PSC) (x : PSC) :
    x ∈ stepP1 prevList cur i comp acc ↔
      x ∈ acc ∨
      (x = comp ∧ isNumberC comp = true ∧
        ((∃ s ∈ cur, isSymbolC s = true ∧
            (s.position + 1 = comp.position ∨ s.position = comp.position + comp.length)) ∨
         (∃ s ∈ prevList, isSymbolC s = true ∧
            comp.position - 1 ≤ s.position ∧ s.position ≤ comp.position + comp.length))) ∨
      (isSymbolC comp = true ∧ ∃ pc ∈ prevList, x = pc ∧ isNumberC pc = true ∧
        pc.position - 1 ≤ comp.position ∧ comp.position ≤ pc.position + pc.length) := by
  unfold stepP1
  match hcomp : comp.component with
  | .partNumber n =>
    have hnum : isNumberC comp = true := by simp [isNumberC, hcomp]
    have hsymf : isSymbolC comp = false := by simp [isSymbolC, hcomp]
    have hiff : (checkLeft cur i comp || checkRight cur i comp ||
        numberPrevCheck comp prevList) = true ↔
        ((∃ s ∈ cur, isSymbolC s = true ∧
            (s.position + 1 = comp.position ∨ s.position = comp.position + comp.length)) ∨
         (∃ s ∈ prevList, isSymbolC s = true ∧
            comp.position - 1 ≤ s.position ∧ s.position ≤ comp.position + comp.length)) := by
      simp only [Bool.or_eq_true]
      rw [checkLeft_iff hinv hc, checkRight_iff hinv hc, numberPrevCheck_iff]
      constructor
      · rintro ((⟨s, hs, h1, h2⟩ | ⟨s, hs, h1, h2⟩) | ⟨s, hs, h1, h2, h3⟩)
        · exact Or.inl ⟨s, hs, h1, Or.inl h2⟩
        · exact Or.inl ⟨s, hs, h1, Or.inr h2⟩
        · exact Or.inr ⟨s, hs, h1, h2, h3⟩
      · rintro (⟨s, hs, h1, h2 | h2⟩ | ⟨s, hs, h1, h2, h3⟩)
        · exact Or.inl (Or.inl ⟨s, hs, h1, h2⟩)
        · exact Or.inl (Or.inr ⟨s, hs, h1, h2⟩)
        · exact Or.inr ⟨s, hs, h1, h2, h3⟩
    by_cases hval : (checkLeft cur i comp || checkRight cur i comp ||
        numberPrevCheck comp prevList) = true
    · rw [if_pos hval, List.mem_insert_iff]
      constructor
      · rintro (h | h)
        · exact Or.inr (Or.inl ⟨h, hnum, hiff.mp hval⟩)
        · exact Or.inl h
      · rintro (h | ⟨h1, _⟩ | ⟨h1, _⟩)
        · exact Or.inr h
        · exact Or.inl h1
        · rw [h1] at hsymf
          simp at hsymf
    · rw [if_neg hval]
      constructor
      · exact Or.inl
      · rintro (h | ⟨_, _, h3⟩ | ⟨h1, _⟩)
        · exact h
        · exact absurd (hiff.mpr h3) hval
        · rw [h1] at hsymf
          simp at hsymf
  | .symbol ch =>
    have hnumf : isNumberC comp = false := by simp [isNumberC, hcomp]
    have hsym : isSymbolC comp = true := by simp [isSymbolC, hcomp]
    rw [retroFold_mem]
    constructor
    · rintro (h | h)
      · exact Or.inl h
      · exact Or.inr (Or.inr ⟨hsym, h⟩)
    · rintro (h | ⟨_, h2, _⟩ | ⟨_, h⟩)
      · exact Or.inl h
      · rw [h2] at hnumf
        simp at hnumf
      · exact Or.inr h

theorem processP1Go_mem {k : Nat} {prevList cur : List PSC} (hinv : LineInv k cur) :
    ∀ (rest : List PSC) (i : Nat) (acc : List PSC),
      rest = cur.drop i →
      ∀ x, x ∈ processP1Go prevList cur i rest acc ↔
        x ∈ acc ∨
        (x ∈ rest ∧ isNumberC x = true ∧
          ((∃ s ∈ cur, isSymbolC s = true ∧
              (s.position + 1 = x.position ∨ s.position = x.position + x.length)) ∨
           (∃ s ∈ prevList, isSymbolC s = true ∧
              x.position - 1 ≤ s.position ∧ s.position ≤ x.position + x.length))) ∨
        (∃ c ∈ rest, isSymbolC c = true ∧ ∃ pc ∈ prevList, x = pc ∧ isNumberC pc = true ∧
          pc.position - 1 ≤ c.position ∧ c.position ≤ pc.position + pc.length) := by
  intro rest
  induction rest with
  | nil => intro i acc _ x; simp [processP1Go]
  | cons comp rest' ih =>
    intro i acc hdrop x
    have hci : cur.get? i = some comp := by
      have h1 : (cur.drop i).head? = some comp := by
        rw [← hdrop]
        rfl
      rw [List.head?_drop] at h1
      rw [List.get?_eq_getElem?]
      exact h1
    have hdrop' : rest' = cur.drop (i + 1) := by
      have h2 : cur.drop (i + 1) = (cur.drop i).drop 1 := by
        rw [List.drop_drop, Nat.add_comm]
      rw [h2, ← hdrop, List.drop_one, List.tail_cons]
    rw [processP1Go, ih (i + 1) _ hdrop', stepP1_mem hinv hci]
    constructor
    · rintro ((h | h | h) | h | h)
      · exact Or.inl h
      · obtain ⟨rfl, h2, h3⟩ := h
        exact Or.inr (Or.inl ⟨by simp, h2, h3⟩)
      · obtain ⟨h1, pc, hpc, h2⟩ := h
        exact Or.inr (Or.inr ⟨comp, by simp, h1, pc, hpc, h2⟩)
      · obtain ⟨h1, h2⟩ := h
        exact Or.inr (Or.inl ⟨by simp [h1], h2⟩)
      · obtain ⟨c, hc1, h2⟩ := h
        exact Or.inr (Or.inr ⟨c, by simp [hc1], h2⟩)
    · rintro (h | ⟨h1, h2, h3⟩ | ⟨c, hc1, h2⟩)
      · exact Or.inl (Or.inl h)
      · rcases List.mem_cons.mp h1 with he | hm
        · subst he
          exact Or.inl (Or.inr (Or.inl ⟨rfl, h2, h3⟩))
        · exact Or.inr (Or.inl ⟨hm, h2, h3⟩)
      · rcases List.mem_cons.mp hc1 with he | hm
        · subst he
          exact Or.inl (Or.inr (Or.inr h2))
        · exact Or.inr (Or.inr ⟨c, hm, h2⟩)

/-! ## Part One: the outer loop computes footprint validity -/

theorem futureCompsP1_cons (k : Nat) (line : List Char) (rest : List (List Char)) :
    futureCompsP1 k (line :: rest) =
      buildLineP1 k (extract line) ++ futureCompsP1 (k + 1) rest := by
  simp [futureCompsP1, linesCompsP1Go]

theorem futureCompsP1_line_ge :
    ∀ (rest : List (List Char)) (k : Nat), ∀ c ∈ futureCompsP1 k rest, k ≤ c.line := by
  intro rest
  induction rest with
  | nil => intro k c hc; simp [futureCompsP1, linesCompsP1Go] at hc
  | cons line rest' ih =>
    intro k c hc
    rw [futureCompsP1_cons] at hc
    rcases List.mem_append.mp hc with h | h
    · have := ((lineInvP1 k line).1 c h).1
      omega
    · have := ih (k + 1) c h
      omega

theorem partOneLoop_mem :
    ∀ (rest : List (List Char)) (k : Nat) (prev? : Option (List PSC)) (acc : List PSC),
      PrevInv k prev? →
      ∀ x, x ∈ partOneLoop k prev? acc rest ↔
        x ∈ acc ∨
        (isNumberC x = true ∧ x ∈ futureCompsP1 k rest ∧
          ∃ s, (s ∈ prev?.getD [] ∨ s ∈ futureCompsP1 k rest) ∧ isSymbolC s = true ∧
            specAdjP x s) ∨
        (isNumberC x = true ∧ x ∈ prev?.getD [] ∧
          ∃ s ∈ futureCompsP1 k rest, isSymbolC s = true ∧ specAdjP x s) := by
  intro rest
  induction rest with
  | nil =>
    intro k prev? acc _ x
    simp [partOneLoop, futureCompsP1, linesCompsP1Go]
  | cons line rest' ih =>
    intro k prev? acc hprev x
    have hinv : LineInv k (buildLineP1 k (extract line)) := lineInvP1 k line
    set cur := buildLineP1 k (extract line) with hcur
    set F' := futureCompsP1 (k + 1) rest' with hF'
    have hcur_line : ∀ c ∈ cur, c.line = k := fun c hc => (hinv.1 c hc).1
    have hcur_len : ∀ c ∈ cur, 1 ≤ c.length := fun c hc => (hinv.1 c hc).2
    have hprev_line : ∀ c ∈ prev?.getD [], c.line + 1 = k :=
      fun c hc => (hprev.1 c hc).1
    have hF'_line : ∀ c ∈ F', k + 1 ≤ c.line := futureCompsP1_line_ge rest' (k + 1)
    have hPrevInv' : PrevInv (k + 1) (some cur) :=
      ⟨fun c hc => ⟨by rw [hcur_line c hc], hcur_len c hc⟩, hinv.2⟩
    show x ∈ partOneLoop (k + 1) (some cur) (processLineP1 prev? cur acc) rest' ↔ _
    rw [ih (k + 1) (some cur) _ hPrevInv' x]
    have hproc := @processP1Go_mem k (prev?.getD []) cur hinv cur 0 acc
      (List.drop_zero cur).symm x
    rw [show processLineP1 prev? cur acc = processP1Go (prev?.getD []) cur 0 cur acc
      from rfl, hproc, futureCompsP1_cons, ← hcur, ← hF']
    set pl := prev?.getD [] with hpl
    constructor
    · rintro ((h | ⟨hx, hnum, hSL | hPL⟩ |
          ⟨c, hc, hsymc, pc, hpc, rfl, hnum, h1, h2⟩) |
          ⟨hnum, hxF, s, hsor, hsym, hadj⟩ | ⟨hnum, hxcur, s, hsF, hsym, hadj⟩)
      · exact Or.inl h
      · obtain ⟨s, hs, hsym, htouch⟩ := hSL
        have hxl : x.line = k := hcur_line x hx
        have hsl : s.line = k := hcur_line s hs
        refine Or.inr (Or.inl ⟨hnum, List.mem_append_left _ hx,
          s, Or.inr (List.mem_append_left _ hs), hsym, ⟨?_, ?_, ?_⟩⟩)
        · exact ⟨by omega, by omega⟩
        · omega
        · omega
      · obtain ⟨s, hs, hsym, h1, h2⟩ := hPL
        have hxl : x.line = k := hcur_line x hx
        have hsl : s.line + 1 = k := hprev_line s hs
        refine Or.inr (Or.inl ⟨hnum, List.mem_append_left _ hx,
          s, Or.inl hs, hsym, ⟨⟨h1, h2⟩, by omega, by omega⟩⟩)
      · have hxl : x.line + 1 = k := hprev_line x hpc
        have hcl : c.line = k := hcur_line c hc
        refine Or.inr (Or.inr ⟨hnum, hpc, c, List.mem_append_left _ hc, hsymc,
          ⟨⟨h1, h2⟩, by omega, by omega⟩⟩)
      · refine Or.inr (Or.inl ⟨hnum, List.mem_append_right _ hxF, s, ?_, hsym, hadj⟩)
        rcases hsor with h | h
        · exact Or.inr (List.mem_append_left _ h)
        · exact Or.inr (List.mem_append_right _ h)
      · exact Or.inr (Or.inl ⟨hnum, List.mem_append_left _ hxcur,
          s, Or.inr (List.mem_append_right _ hsF), hsym, hadj⟩)
    · rintro (h | ⟨hnum, hx, s, hsmem, hsym, hadj⟩ | ⟨hnum, hx, s, hsmem, hsym, hadj⟩)
      · exact Or.inl (Or.inl h)
      · rcases List.mem_append.mp hx with hxc | hxF
        · rcases hsmem with hsp | hscf
          · exact Or.inl (Or.inr (Or.inl ⟨hxc, hnum,
              Or.inr ⟨s, hsp, hsym, hadj.1.1, hadj.1.2⟩⟩))
          · rcases List.mem_append.mp hscf with hsc | hsF
            · have htouch := (touch_iff_colAdj hinv hxc hsc hnum hsym).mpr hadj.1
              exact Or.inl (Or.inr (Or.inl ⟨hxc, hnum, Or.inl ⟨s, hsc, hsym, htouch⟩⟩))
            · exact Or.inr (Or.inr ⟨hnum, hxc, s, hsF, hsym, hadj⟩)
        · rcases hsmem with hsp | hscf
          · have h1 : k + 1 ≤ x.line := hF'_line x hxF
            have h2 : s.line + 1 = k := hprev_line s hsp
            have h3 := hadj.2.1
            omega
          · rcases List.mem_append.mp hscf with hsc | hsF
            · exact Or.inr (Or.inl ⟨hnum, hxF, s, Or.inl hsc, hsym, hadj⟩)
            · exact Or.inr (Or.inl ⟨hnum, hxF, s, Or.inr hsF, hsym, hadj⟩)
      · rcases List.mem_append.mp hsmem with hsc | hsF
        · exact Or.inl (Or.inr (Or.inr ⟨s, hsc, hsym, x, hx, rfl, hnum,
            hadj.1.1, hadj.1.2⟩))
        · have h1 : x.line + 1 = k := hprev_line x hx
          have h2 : k + 1 ≤ s.line := hF'_line s hsF
          have h3 := hadj.2.2
          omega

/-! ## Part One: duplicate-freedom of the collected set -/

theorem retroStep_nodup (comp : PSC) (acc : List PSC) (pc : PSC) (h : acc.Nodup) :
    (retroStep comp acc pc).Nodup := by
  unfold retroStep
  split
  · split
    · exact h.insert
    · exact h
  · exact h

theorem retroFold_nodup (comp : PSC) :
    ∀ (pl : List PSC) (acc : List PSC), acc.Nodup →
      (pl.foldl (fun a pc => retroStep comp a pc) acc).Nodup := by
  intro pl
  induction pl with
  | nil => intro acc h; exact h
  | cons pc rest ih =>
    intro acc h
    rw [List.foldl_cons]
    exact ih _ (retroStep_nodup comp acc pc h)

theorem stepP1_nodup (prevList cur : List PSC) (i : Nat) (comp : PSC)
    (acc : List PSC) (h : acc.Nodup) : (stepP1 prevList cur i comp acc).Nodup := by
  unfold stepP1
  split
  · split
    · exact h.insert
    · exact h
  · exact retroFold_nodup comp prevList acc h

theorem processP1Go_nodup (prevList cur : List PSC) :
    ∀ (rest : List PSC) (i : Nat) (acc : List PSC), acc.Nodup →
      (processP1Go prevList cur i rest acc).Nodup := by
  intro rest
  induction rest with
  | nil => intro i acc h; exact h
  | cons comp rest' ih =>
    intro i acc h
    exact ih (i + 1) _ (stepP1_nodup prevList cur i comp acc h)

theorem partOneLoop_nodup :
    ∀ (rest : List (List Char)) (k : Nat) (prev? : Option (List PSC))
      (acc : List PSC), acc.Nodup → (partOneLoop k prev? acc rest).Nodup := by
  intro rest
  induction rest with
  | nil => intro k prev? acc h; exact h
  | cons line rest' ih =>
    intro k prev? acc h
    exact ih (k + 1) _ _ (processP1Go_nodup _ _ _ 0 acc h)

theorem futureCompsP1_nodup :
    ∀ (rest : List (List Char)) (k : Nat), (futureCompsP1 k rest).Nodup := by
  intro rest
  induction rest with
  | nil => intro k; simp [futureCompsP1, linesCompsP1Go]
  | cons line rest' ih =>
    intro k
    rw [futureCompsP1_cons, List.nodup_append]
    refine ⟨(lineInvP1 k line).nodup, ih (k + 1), ?_⟩
    intro a ha hb
    have h1 : a.line = k := ((lineInvP1 k line).1 a ha).1
    have h2 : k + 1 ≤ a.line := futureCompsP1_line_ge rest' (k + 1) a hb
    omega

/-! ## Part One: final sum -/

theorem collectNums_go :
    ∀ (l : List PSC) (acc : List Int),
      l.foldl (fun acc c =>
        match c.component with
        | .partNumber n => acc ++ [n]
        | _ => acc) acc
      = acc ++ (l.filter fun c => isNumberC c).map valueC := by
  intro l
  induction l with
  | nil => intro acc; simp
  | cons c rest ih =>
    intro acc
    rw [List.foldl_cons]
    match hc : c.component with
    | .partNumber n =>
      have hnum : isNumberC c = true := by simp [isNumberC, hc]
      have hval : valueC c = n := by simp [valueC, hc]
      rw [List.filter_cons_of_pos hnum, ih, List.map_cons, hval]
      simp
    | .symbol ch =>
      have hnum : isNumberC c = false := by simp [isNumberC, hc]
      rw [List.filter_cons_of_neg (by simp [hnum]), ih]

theorem collectNums_eq (l : List PSC) :
    collectNums l = (l.filter fun c => isNumberC c).map valueC := by
  unfold collectNums
  rw [collectNums_go]
  simp

theorem partOne_set_mem (ls : List (List Char)) (x : PSC) :
    x ∈ partOneLoop 0 none [] ls ↔
      x ∈ allCompsP1 ls ∧ specValidPartNumber (allCompsP1 ls) x = true := by
  rw [partOneLoop_mem ls 0 none [] ⟨by simp, by simp⟩ x]
  have hall : futureCompsP1 0 ls = allCompsP1 ls := rfl
  rw [hall]
  constructor
  · rintro (h | ⟨hnum, hx, s, hsmem, hsym, hadj⟩ | ⟨_, hx, _⟩)
    · simp at h
    · rcases hsmem with h | h
      · simp at h
      · refine ⟨hx, ?_⟩
        unfold specValidPartNumber
        rw [Bool.and_eq_true]
        refine ⟨hnum, List.any_eq_true.mpr ⟨s, h, ?_⟩⟩
        rw [Bool.and_eq_true]
        exact ⟨hsym, specFootprintAdj_iff.mpr hadj⟩
    · simp at hx
  · rintro ⟨hx, hvalid⟩
    unfold specValidPartNumber at hvalid
    rw [Bool.and_eq_true, List.any_eq_true] at hvalid
    obtain ⟨hnum, s, hs, hh⟩ := hvalid
    rw [Bool.and_eq_true] at hh
    exact Or.inr (Or.inl ⟨hnum, hx, s, Or.inr hs, hh.1, specFootprintAdj_iff.mp hh.2⟩)

theorem partOne_eq_spec (ls : List (List Char)) :
    PartOne.getSolution ls = .ok (specPartOneSum ls) := by
  have key : (collectNums (partOneLoop 0 none [] ls)).sum = specPartOneSum ls := by
    rw [collectNums_eq]
    have hfil : (partOneLoop 0 none [] ls).filter (fun c => isNumberC c) =
        partOneLoop 0 none [] ls := by
      rw [List.filter_eq_self]
      intro a ha
      have h2 := ((partOne_set_mem ls a).mp ha).2
      unfold specValidPartNumber at h2
      rw [Bool.and_eq_true] at h2
      exact h2.1
    rw [hfil]
    have hnd1 : (partOneLoop 0 none [] ls).Nodup :=
      partOneLoop_nodup ls 0 none [] List.nodup_nil
    have hnd0 : (allCompsP1 ls).Nodup := futureCompsP1_nodup ls 0
    have hnd2 : ((allCompsP1 ls).filter (specValidPartNumber (allCompsP1 ls))).Nodup :=
      hnd0.filter _
    have hperm : List.Perm (partOneLoop 0 none [] ls)
        ((allCompsP1 ls).filter (specValidPartNumber (allCompsP1 ls))) := by
      rw [List.perm_ext_iff_of_nodup hnd1 hnd2]
      intro a
      rw [partOne_set_mem, List.mem_filter]
    unfold specPartOneSum
    exact (hperm.map valueC).sum_eq
  unfold PartOne.getSolution
  rw [key]

/-! ## Gear map operation lemmas -/

theorem mapLookup_insert (κi κ : Nat × Nat) (v : List Int) :
    ∀ m : GMap, mapLookup κ (mapInsert κi v m) =
      if κi = κ then some v else mapLookup κ m := by
  intro m
  induction m with
  | nil => simp [mapInsert, mapLookup]
  | cons kv rest ih =>
    obtain ⟨κ0, v0⟩ := kv
    by_cases h0 : κ0 = κi
    · subst h0
      simp only [mapInsert, if_pos rfl]
      by_cases h : κ0 = κ
      · simp [mapLookup, h]
      · simp [mapLookup, h]
    · simp only [mapInsert, if_neg h0]
      by_cases h1 : κ0 = κ
      · have hne : ¬ κi = κ := fun he => h0 (h1.trans he.symm)
        simp [mapLookup, h1, hne]
      · simp [mapLookup, h1, ih]

theorem mapLookup_push (κi κ : Nat × Nat) (n : Int) :
    ∀ m : GMap, mapLookup κ (mapPush κi n m) =
      if κi = κ then (mapLookup κ m).map (· ++ [n]) else mapLookup κ m := by
  intro m
  induction m with
  | nil => simp [mapPush, mapLookup]
  | cons kv rest ih =>
    obtain ⟨κ0, v0⟩ := kv
    by_cases h0 : κ0 = κi
    · subst h0
      simp only [mapPush, if_pos rfl]
      by_cases h : κ0 = κ
      · simp [mapLookup, h]
      · simp [mapLookup, h]
    · simp only [mapPush, if_neg h0]
      by_cases h1 : κ0 = κ
      · have hne : ¬ κi = κ := fun he => h0 (h1.trans he.symm)
        simp [mapLookup, h1, hne]
      · simp [mapLookup, h1, ih]

theorem mapPush_keys (κi : Nat × Nat) (n : Int) :
    ∀ m : GMap, (mapPush κi n m).map Prod.fst = m.map Prod.fst := by
  intro m
  induction m with
  | nil => rfl
  | cons kv rest ih =>
    obtain ⟨κ0, v0⟩ := kv
    by_cases h0 : κ0 = κi
    · subst h0
      simp [mapPush]
    · simp [mapPush, h0, ih]

theorem mapInsert_fresh (κi : Nat × Nat) (v : List Int) :
    ∀ m : GMap, κi ∉ m.map Prod.fst → mapInsert κi v m = m ++ [(κi, v)] := by
  intro m
  induction m with
  | nil => intro _; rfl
  | cons kv rest ih =>
    obtain ⟨κ0, v0⟩ := kv
    intro hmem
    simp only [List.map_cons, List.mem_cons, not_or] at hmem
    have hne : ¬ κ0 = κi := fun he => hmem.1 (he.symm)
    simp [mapInsert, hne, ih hmem.2]

/-! ## stepP2 case characterisations -/

theorem stepP2_star {comp : PSC} (h : comp.component = .symbol '*')
    (lineNum : Nat) (prevList cur : List PSC) (i : Nat) (gears : GMap) :
    stepP2 lineNum prevList cur i comp gears =
      mapInsert (lineNum, comp.position)
        ((gearLeft cur i comp).toList ++ (gearRight cur i comp).toList ++
          gearAbove comp prevList) gears := by
  unfold stepP2
  rw [h]
  rfl

theorem stepP2_num {comp : PSC} {n : Int} (h : comp.component = .partNumber n)
    (lineNum : Nat) (prevList cur : List PSC) (i : Nat) (gears : GMap) :
    stepP2 lineNum prevList cur i comp gears =
      prevList.foldl (fun g pc =>
        if comp.position - 1 ≤ pc.position ∧ pc.position ≤ comp.position + comp.length then
          match pc.component with
          | .symbol '*' => mapPush (pc.line, pc.position) n g
          | _ => g
        else g) gears := by
  unfold stepP2
  rw [h]

theorem stepP2_sym {comp : PSC} {ch : Char} (h : comp.component = .symbol ch)
    (hch : ¬ ch = '*') (lineNum : Nat) (prevList cur : List PSC) (i : Nat)
    (gears : GMap) : stepP2 lineNum prevList cur i comp gears = gears := by
  unfold stepP2
  rw [h]
  split
  · rename_i heq
    rw [SchematicComponent.symbol.injEq] at heq
    exact absurd heq hch
  · rename_i heq
    exact absurd heq (by simp)
  · rfl

/-! ## Collector equivalences for a gear -/

theorem filter_eq_singleton {p : PSC → Bool} {l : List PSC} {a : PSC}
    (hnd : l.Nodup) (ha : a ∈ l) (hpa : p a = true)
    (huniq : ∀ b ∈ l, p b = true → b = a) : l.filter p = [a] := by
  obtain ⟨s, t, rfl⟩ := List.append_of_mem ha
  rw [List.nodup_append] at hnd
  have has : a ∉ s := fun h => hnd.2.2 h (by simp)
  have hat : a ∉ t := (List.nodup_cons.mp hnd.2.1).1
  rw [List.filter_append, List.filter_cons_of_pos hpa]
  have hs : s.filter p = [] := by
    rw [List.filter_eq_nil_iff]
    intro b hb hpb
    have hba := huniq b (by simp [hb]) hpb
    exact has (hba ▸ hb)
  have ht : t.filter p = [] := by
    rw [List.filter_eq_nil_iff]
    intro b hb hpb
    have hba := huniq b (by simp [hb]) hpb
    exact hat (hba ▸ hb)
  rw [hs, ht]
  rfl

/-- `adjNumVals` one-step unfolding, positive case. -/
theorem adjNumVals_cons_pos {p : Nat} {c : PSC} {l : List PSC}
    (h : (isNumberC c && decide (c.position - 1 ≤ p) &&
      decide (p ≤ c.position + c.length)) = true) :
    adjNumVals p (c :: l) = valueC c :: adjNumVals p l := by
  unfold adjNumVals
  rw [@List.filter_cons_of_pos _ (fun c => isNumberC c && decide (c.position - 1 ≤ p) &&
    decide (p ≤ c.position + c.length)) c l h, List.map_cons]

/-- `adjNumVals` one-step unfolding, negative case. -/
theorem adjNumVals_cons_neg {p : Nat} {c : PSC} {l : List PSC}
    (h : (isNumberC c && decide (c.position - 1 ≤ p) &&
      decide (p ≤ c.position + c.length)) = false) :
    adjNumVals p (c :: l) = adjNumVals p l := by
  unfold adjNumVals
  rw [@List.filter_cons_of_neg _ (fun c => isNumberC c && decide (c.position - 1 ≤ p) &&
    decide (p ≤ c.position + c.length)) c l (Bool.eq_false_iff.mp h)]

theorem gearAbove_go (comp : PSC) :
    ∀ (pl : List PSC) (acc : List Int),
      pl.foldl (fun acc pc =>
        if comp.position ≤ pc.position + pc.length ∧ pc.position ≤ comp.position + 1 then
          match pc.component with
          | .partNumber n => acc ++ [n]
          | _ => acc
        else acc) acc
      = acc ++ adjNumVals comp.position pl := by
  intro pl
  induction pl with
  | nil => intro acc; simp [adjNumVals]
  | cons pc rest ih =>
    intro acc
    rw [List.foldl_cons]
    by_cases hcond : comp.position ≤ pc.position + pc.length ∧
        pc.position ≤ comp.position + 1
    · rw [if_pos hcond]
      match hpc : pc.component with
      | .partNumber n =>
        have hpred : (isNumberC pc && decide (pc.position - 1 ≤ comp.position) &&
            decide (comp.position ≤ pc.position + pc.length)) = true := by
          simp only [Bool.and_eq_true, decide_eq_true_eq]
          refine ⟨⟨by simp [isNumberC, hpc], by omega⟩, hcond.1⟩
        have hval : valueC pc = n := by simp [valueC, hpc]
        rw [ih, adjNumVals_cons_pos hpred, hval]
        simp
      | .symbol ch =>
        have hpred : (isNumberC pc && decide (pc.position - 1 ≤ comp.position) &&
            decide (comp.position ≤ pc.position + pc.length)) = false := by
          simp [isNumberC, hpc]
        rw [ih, adjNumVals_cons_neg hpred]
    · rw [if_neg hcond]
      have hpred : (isNumberC pc && decide (pc.position - 1 ≤ comp.position) &&
          decide (comp.position ≤ pc.position + pc.length)) = false := by
        have hnt : ¬ ((isNumberC pc && decide (pc.position - 1 ≤ comp.position) &&
            decide (comp.position ≤ pc.position + pc.length)) = true) := by
          simp only [Bool.and_eq_true, decide_eq_true_eq]
          rintro ⟨⟨_, h1⟩, h2⟩
          exact hcond ⟨h2, by omega⟩
        exact Bool.eq_false_iff.mpr hnt
      rw [ih, adjNumVals_cons_neg hpred]

theorem gearAbove_eq (comp : PSC) (pl : List PSC) :
    gearAbove comp pl = adjNumVals comp.position pl := by
  unfold gearAbove
  rw [gearAbove_go]
  simp

theorem gearLeft_eq {k : Nat} {cur : List PSC} (hinv : LineInv k cur)
    {i : Nat} {comp : PSC} (hc : cur.get? i = some comp) :
    (gearLeft cur i comp).toList = leftVals comp.position cur := by
  have hilt : i < cur.length := (List.get?_eq_some.mp hc).1
  have hcomp_i : cur[i] = comp := by
    have := (List.get?_eq_some.mp hc).2
    simpa [List.get_eq_getElem] using this
  by_cases hex : ∃ m ∈ cur,
      (isNumberC m && decide (m.position + m.length = comp.position)) = true
  · obtain ⟨m, hm, hpm⟩ := hex
    rw [Bool.and_eq_true, decide_eq_true_eq] at hpm
    obtain ⟨hnum, hend⟩ := hpm
    have hmlen : 1 ≤ m.length := (hinv.1 m hm).2
    obtain ⟨j, hj, hsj⟩ := List.mem_iff_getElem.mp hm
    have hsj' : cur.get? j = some m := by
      rw [List.get?_eq_getElem?, List.getElem?_eq_getElem hj, hsj]
    have hmpos : m.position < comp.position := by omega
    have hji : j < i := by
      by_contra hji
      push_neg at hji
      rcases Nat.eq_or_lt_of_le hji with he | hlt
      · rw [he] at hc
        rw [hc] at hsj'
        have heq : comp = m := Option.some.inj hsj'
        rw [heq] at hmpos
        omega
      · have := List.pairwise_iff_getElem.mp hinv.2 i j hilt hj hlt
        rw [hcomp_i, hsj] at this
        have hclen : 1 ≤ comp.length :=
          (hinv.1 comp (by rw [← hcomp_i]; exact List.getElem_mem hilt)).2
        omega
    have hj_eq : j = i - 1 := by
      by_contra hne
      have hjlt : j < i - 1 := by omega
      have hi1 : i - 1 < cur.length := by omega
      have h1 := List.pairwise_iff_getElem.mp hinv.2 j (i - 1) hj hi1 hjlt
      have h2 := List.pairwise_iff_getElem.mp hinv.2 (i - 1) i hi1 hilt (by omega)
      rw [hsj] at h1
      rw [hcomp_i] at h2
      have hlen1 : 1 ≤ cur[i - 1].length := (hinv.1 _ (List.getElem_mem hi1)).2
      omega
    obtain ⟨n, hn⟩ : ∃ n, m.component = .partNumber n := by
      unfold isNumberC at hnum
      match hmc : m.component with
      | .partNumber n => exact ⟨n, rfl⟩
      | .symbol ch => rw [hmc] at hnum; simp at hnum
    have hget : cur.get? (i - 1) = some m := by
      rw [hj_eq] at hsj'
      exact hsj'
    have hgl : gearLeft cur i comp = some n := by
      unfold gearLeft
      rw [if_pos (by omega : 0 < i), hget]
      show (match m.component with
        | SchematicComponent.partNumber n =>
          if m.position + m.length = comp.position then some n else none
        | _ => none) = some n
      rw [hn]
      show (if m.position + m.length = comp.position then some n else none) = some n
      rw [if_pos hend]
    rw [hgl]
    have hval : valueC m = n := by simp [valueC, hn]
    have huniq : ∀ b ∈ cur,
        (isNumberC b && decide (b.position + b.length = comp.position)) = true →
          b = m := by
      intro b hb hpb
      rw [Bool.and_eq_true, decide_eq_true_eq] at hpb
      obtain ⟨hb1, hb2⟩ := hpb
      have hblen : 1 ≤ b.length := (hinv.1 b hb).2
      by_contra hbm
      rcases hinv.not_overlap hb hm hbm with h3 | h3
      · omega
      · omega
    unfold leftVals
    rw [filter_eq_singleton hinv.nodup hm
      (by rw [Bool.and_eq_true, decide_eq_true_eq]; exact ⟨hnum, hend⟩) huniq]
    simp [hval]
  · push_neg at hex
    have hleft : gearLeft cur i comp = none := by
      unfold gearLeft
      by_cases hi : 0 < i
      · rw [if_pos hi]
        have hi1 : i - 1 < cur.length := by omega
        have hget : cur.get? (i - 1) = some cur[i - 1] := by
          rw [List.get?_eq_getElem?, List.getElem?_eq_getElem hi1]
        rw [hget]
        show (match cur[i - 1].component with
          | SchematicComponent.partNumber n =>
            if cur[i - 1].position + cur[i - 1].length = comp.position then some n
            else none
          | _ => none) = none
        match hmc : cur[i - 1].component with
        | .partNumber n =>
          by_cases hend : cur[i - 1].position + cur[i - 1].length = comp.position
          · have hmem1 : cur[i - 1] ∈ cur := List.getElem_mem hi1
            have hp : (isNumberC cur[i - 1] &&
                decide (cur[i - 1].position + cur[i - 1].length = comp.position)) = true := by
              rw [Bool.and_eq_true, decide_eq_true_eq]
              exact ⟨by simp [isNumberC, hmc], hend⟩
            exact absurd hp (hex cur[i - 1] hmem1)
          · show (if cur[i - 1].position + cur[i - 1].length = comp.position
                then some n else none) = none
            rw [if_neg hend]
        | .symbol ch => rfl
      · rw [if_neg hi]
    rw [hleft]
    unfold leftVals
    have hnil : cur.filter
        (fun c => isNumberC c && decide (c.position + c.length = comp.position)) = [] := by
      rw [List.filter_eq_nil_iff]
      exact hex
    rw [hnil]
    rfl

theorem gearRight_eq {k : Nat} {cur : List PSC} (hinv : LineInv k cur)
    {i : Nat} {comp : PSC} (hc : cur.get? i = some comp) :
    (gearRight cur i comp).toList = rightVals comp.position cur := by
  have hilt : i < cur.length := (List.get?_eq_some.mp hc).1
  have hcomp_i : cur[i] = comp := by
    have := (List.get?_eq_some.mp hc).2
    simpa [List.get_eq_getElem] using this
  have hclen : 1 ≤ comp.length :=
    (hinv.1 comp (by rw [← hcomp_i]; exact List.getElem_mem hilt)).2
  by_cases hex : ∃ m ∈ cur,
      (isNumberC m && decide (m.position = comp.position + 1)) = true
  · obtain ⟨m, hm, hpm⟩ := hex
    rw [Bool.and_eq_true, decide_eq_true_eq] at hpm
    obtain ⟨hnum, hstart⟩ := hpm
    have hmlen : 1 ≤ m.length := (hinv.1 m hm).2
    obtain ⟨j, hj, hsj⟩ := List.mem_iff_getElem.mp hm
    have hsj' : cur.get? j = some m := by
      rw [List.get?_eq_getElem?, List.getElem?_eq_getElem hj, hsj]
    have hij : i < j := by
      by_contra hij
      push_neg at hij
      rcases Nat.eq_or_lt_of_le hij with he | hlt
      · rw [← he] at hc
        rw [hc] at hsj'
        have heq : comp = m := Option.some.inj hsj'
        rw [heq] at hstart
        omega
      · have := List.pairwise_iff_getElem.mp hinv.2 j i hj hilt hlt
        rw [hcomp_i, hsj] at this
        omega
    have hj_eq : j = i + 1 := by
      by_contra hne
      have hjgt : i + 1 < j := by omega
      have hi1 : i + 1 < cur.length := by omega
      have h1 := List.pairwise_iff_getElem.mp hinv.2 i (i + 1) hilt hi1 (by omega)
      have h2 := List.pairwise_iff_getElem.mp hinv.2 (i + 1) j hi1 hj hjgt
      rw [hcomp_i] at h1
      rw [hsj] at h2
      have hlen1 : 1 ≤ cur[i + 1].length := (hinv.1 _ (List.getElem_mem hi1)).2
      omega
    obtain ⟨n, hn⟩ : ∃ n, m.component = .partNumber n := by
      unfold isNumberC at hnum
      match hmc : m.component with
      | .partNumber n => exact ⟨n, rfl⟩
      | .symbol ch => rw [hmc] at hnum; simp at hnum
    have hget : cur.get? (i + 1) = some m := by
      rw [hj_eq] at hsj'
      exact hsj'
    have hgr : gearRight cur i comp = some n := by
      unfold gearRight
      rw [if_pos (by omega : i < cur.length - 1), hget]
      show (match m.component with
        | SchematicComponent.partNumber n =>
          if m.position ≤ comp.position + 1 then some n else none
        | _ => none) = some n
      rw [hn]
      show (if m.position ≤ comp.position + 1 then some n else none) = some n
      rw [if_pos (by omega)]
    rw [hgr]
    have hval : valueC m = n := by simp [valueC, hn]
    have huniq : ∀ b ∈ cur,
        (isNumberC b && decide (b.position = comp.position + 1)) = true →
          b = m := by
      intro b hb hpb
      rw [Bool.and_eq_true, decide_eq_true_eq] at hpb
      obtain ⟨hb1, hb2⟩ := hpb
      have hblen : 1 ≤ b.length := (hinv.1 b hb).2
      by_contra hbm
      rcases hinv.not_overlap hb hm hbm with h3 | h3
      · omega
      · omega
    unfold rightVals
    rw [filter_eq_singleton hinv.nodup hm
      (by rw [Bool.and_eq_true, decide_eq_true_eq]; exact ⟨hnum, hstart⟩) huniq]
    simp [hval]
  · push_neg at hex
    have hright : gearRight cur i comp = none := by
      unfold gearRight
      by_cases hi : i < cur.length - 1
      · rw [if_pos hi]
        have hi1 : i + 1 < cur.length := by omega
        have hget : cur.get? (i + 1) = some cur[i + 1] := by
          rw [List.get?_eq_getElem?, List.getElem?_eq_getElem hi1]
        rw [hget]
        show (match cur[i + 1].component with
          | SchematicComponent.partNumber n =>
            if cur[i + 1].position ≤ comp.position + 1 then some n else none
          | _ => none) = none
        match hmc : cur[i + 1].component with
        | .partNumber n =>
          by_cases hle : cur[i + 1].position ≤ comp.position + 1
          · have h1 := List.pairwise_iff_getElem.mp hinv.2 i (i + 1) hilt hi1 (by omega)
            rw [hcomp_i] at h1
            have hstart : cur[i + 1].position = comp.position + 1 := by omega
            have hmem1 : cur[i + 1] ∈ cur := List.getElem_mem hi1
            have hp : (isNumberC cur[i + 1] &&
                decide (cur[i + 1].position = comp.position + 1)) = true := by
              rw [Bool.and_eq_true, decide_eq_true_eq]
              exact ⟨by simp [isNumberC, hmc], hstart⟩
            exact absurd hp (hex cur[i + 1] hmem1)
          · show (if cur[i + 1].position ≤ comp.position + 1 then some n else none) = none
            rw [if_neg hle]
        | .symbol ch => rfl
      · rw [if_neg hi]
    rw [hright]
    unfold rightVals
    have hnil : cur.filter
        (fun c => isNumberC c && decide (c.position = comp.position + 1)) = [] := by
      rw [List.filter_eq_nil_iff]
      exact hex
    rw [hnil]
    rfl

/-! ## Part Two: effect of one line on the gear map (lookup level) -/

theorem mapLookup_eq_none {κ : Nat × Nat} :
    ∀ {m : GMap}, κ ∉ m.map Prod.fst → mapLookup κ m = none := by
  intro m
  induction m with
  | nil => intro _; rfl
  | cons kv rest ih =>
    intro h
    simp only [List.map_cons, List.mem_cons, not_or] at h
    obtain ⟨κ0, v0⟩ := kv
    have hne : ¬ κ0 = κ := fun he => h.1 (he.symm)
    simp [mapLookup, hne, ih h.2]

theorem pushStep_lookup (comp : PSC) (n : Int) (pc : PSC) (g : GMap) (κ : Nat × Nat) :
    mapLookup κ (if comp.position - 1 ≤ pc.position ∧
        pc.position ≤ comp.position + comp.length then
        match pc.component with
        | .symbol '*' => mapPush (pc.line, pc.position) n g
        | _ => g
      else g) =
    if isStarC pc = true ∧ (pc.line, pc.position) = κ ∧
        comp.position - 1 ≤ pc.position ∧ pc.position ≤ comp.position + comp.length then
      (mapLookup κ g).map (· ++ [n])
    else mapLookup κ g := by
  by_cases hr : comp.position - 1 ≤ pc.position ∧
      pc.position ≤ comp.position + comp.length
  · rw [if_pos hr]
    match hpc : pc.component with
    | .symbol ch =>
      by_cases hch : ch = '*'
      · subst hch
        show mapLookup κ (mapPush (pc.line, pc.position) n g) = _
        rw [mapLookup_push]
        by_cases hκ : (pc.line, pc.position) = κ
        · rw [if_pos hκ, if_pos ⟨by simp [isStarC, hpc], hκ, hr⟩]
        · rw [if_neg hκ, if_neg (fun hcon => hκ hcon.2.1)]
      · have hstep : (match SchematicComponent.symbol ch with
            | SchematicComponent.symbol '*' => mapPush (pc.line, pc.position) n g
            | _ => g) = g := by
          split
          · rename_i heq
            rw [SchematicComponent.symbol.injEq] at heq
            exact absurd heq hch
          · rfl
        rw [hstep, if_neg ?_]
        rintro ⟨hstar, _⟩
        simp [isStarC, hpc, hch] at hstar
    | .partNumber m =>
      show mapLookup κ g = _
      rw [if_neg ?_]
      rintro ⟨hstar, _⟩
      simp [isStarC, hpc] at hstar
  · rw [if_neg hr, if_neg (fun hcon => hr hcon.2.2)]

theorem pushFoldP2_lookup (comp : PSC) (n : Int) :
    ∀ (pl : List PSC) (g : GMap) (κ : Nat × Nat),
      (pl.Pairwise fun a b => a.position + a.length ≤ b.position) →
      (∀ c ∈ pl, 1 ≤ c.length) →
      mapLookup κ (pl.foldl (fun g pc =>
        if comp.position - 1 ≤ pc.position ∧
            pc.position ≤ comp.position + comp.length then
          match pc.component with
          | .symbol '*' => mapPush (pc.line, pc.position) n g
          | _ => g
        else g) g) =
      if ∃ pc ∈ pl, isStarC pc = true ∧ (pc.line, pc.position) = κ ∧
          comp.position - 1 ≤ pc.position ∧ pc.position ≤ comp.position + comp.length then
        (mapLookup κ g).map (· ++ [n])
      else mapLookup κ g := by
  intro pl
  induction pl with
  | nil =>
    intro g κ _ _
    rw [if_neg (by simp)]
    rfl
  | cons pc rest ih =>
    intro g κ hpair hlen
    rw [List.foldl_cons,
      ih _ κ (List.pairwise_cons.mp hpair).2 (fun c hc => hlen c (by simp [hc])),
      pushStep_lookup]
    by_cases hhead : isStarC pc = true ∧ (pc.line, pc.position) = κ ∧
        comp.position - 1 ≤ pc.position ∧ pc.position ≤ comp.position + comp.length
    · have hnorest : ¬ ∃ pc' ∈ rest, isStarC pc' = true ∧ (pc'.line, pc'.position) = κ ∧
          comp.position - 1 ≤ pc'.position ∧
            pc'.position ≤ comp.position + comp.length := by
        rintro ⟨pc', hpc', _, hκ', _⟩
        have h1 := (List.pairwise_cons.mp hpair).1 pc' hpc'
        have h2 : 1 ≤ pc.length := hlen pc (by simp)
        have hpp : pc.position = pc'.position := by
          have e1 := hhead.2.1
          rw [← e1, Prod.mk.injEq] at hκ'
          exact hκ'.2.symm
        omega
      rw [if_neg hnorest, if_pos hhead, if_pos ⟨pc, by simp, hhead⟩]
    · rw [if_neg hhead]
      by_cases hrest : ∃ pc' ∈ rest, isStarC pc' = true ∧ (pc'.line, pc'.position) = κ ∧
          comp.position - 1 ≤ pc'.position ∧ pc'.position ≤ comp.position + comp.length
      · obtain ⟨pc', hpc', hcond⟩ := hrest
        rw [if_pos ⟨pc', hpc', hcond⟩, if_pos ⟨pc', by simp [hpc'], hcond⟩]
      · rw [if_neg hrest, if_neg ?_]
        rintro ⟨pc', hpc', hcond⟩
        rcases List.mem_cons.mp hpc' with he | hm
        · subst he
          exact hhead hcond
        · exact hrest ⟨pc', hm, hcond⟩

theorem processP2Go_lookup_other (lineNum : Nat) (prevList cur : List PSC)
    (hprevline : ∀ c ∈ prevList, c.line + 1 = lineNum)
    (hprevpair : prevList.Pairwise fun a b => a.position + a.length ≤ b.position)
    (hprevlen : ∀ c ∈ prevList, 1 ≤ c.length) :
    ∀ (rest : List PSC) (i : Nat) (g : GMap) (κ : Nat × Nat),
      ¬ κ.1 = lineNum → ¬ κ.1 + 1 = lineNum →
      mapLookup κ (processP2Go lineNum prevList cur i rest g) = mapLookup κ g := by
  intro rest
  induction rest with
  | nil => intro i g κ _ _; rfl
  | cons comp rest' ih =>
    intro i g κ h1 h2
    show mapLookup κ (processP2Go lineNum prevList cur (i + 1) rest'
      (stepP2 lineNum prevList cur i comp g)) = mapLookup κ g
    rw [ih (i + 1) _ κ h1 h2]
    match hcomp : comp.component with
    | .partNumber n =>
      rw [stepP2_num hcomp, pushFoldP2_lookup comp n prevList g κ hprevpair hprevlen,
        if_neg ?_]
      rintro ⟨pc, hpc, _, hκ, _⟩
      have hline : pc.line = κ.1 := by
        rw [← hκ]
      have := hprevline pc hpc
      omega
    | .symbol ch =>
      by_cases hch : ch = '*'
      · subst hch
        rw [stepP2_star hcomp, mapLookup_insert, if_neg ?_]
        intro he
        apply h1
        rw [← he]
      · rw [stepP2_sym hcomp hch]

theorem processP2Go_lookup_prev (lineNum : Nat) (prevList cur : List PSC)
    (hprevline : ∀ c ∈ prevList, c.line + 1 = lineNum)
    (hprevpair : prevList.Pairwise fun a b => a.position + a.length ≤ b.position)
    (hprevlen : ∀ c ∈ prevList, 1 ≤ c.length) :
    ∀ (rest : List PSC) (i : Nat) (g : GMap) (κ : Nat × Nat),
      κ.1 + 1 = lineNum →
      mapLookup κ (processP2Go lineNum prevList cur i rest g) =
        if ∃ s ∈ prevList, isStarC s = true ∧ s.position = κ.2 then
          (mapLookup κ g).map (· ++ adjNumVals κ.2 rest)
        else mapLookup κ g := by
  intro rest
  induction rest with
  | nil =>
    intro i g κ hκ
    show mapLookup κ g = _
    by_cases hex : ∃ s ∈ prevList, isStarC s = true ∧ s.position = κ.2
    · rw [if_pos hex]
      cases mapLookup κ g <;> simp [adjNumVals]
    · rw [if_neg hex]
  | cons comp rest' ih =>
    intro i g κ hκ
    show mapLookup κ (processP2Go lineNum prevList cur (i + 1) rest'
      (stepP2 lineNum prevList cur i comp g)) = _
    rw [ih (i + 1) _ κ hκ]
    match hcomp : comp.component with
    | .partNumber n =>
      rw [stepP2_num hcomp, pushFoldP2_lookup comp n prevList g κ hprevpair hprevlen]
      by_cases hex : ∃ s ∈ prevList, isStarC s = true ∧ s.position = κ.2
      · rw [if_pos hex]
        rw [if_pos hex]
        obtain ⟨s, hs, hstar, hspos⟩ := hex
        have hsl : s.line = κ.1 := by
          have := hprevline s hs
          omega
        have hkey : (s.line, s.position) = κ := by
          rw [hsl, hspos]
        by_cases hcol : comp.position - 1 ≤ κ.2 ∧ κ.2 ≤ comp.position + comp.length
        · have hpred : (isNumberC comp && decide (comp.position - 1 ≤ κ.2) &&
              decide (κ.2 ≤ comp.position + comp.length)) = true := by
            simp only [Bool.and_eq_true, decide_eq_true_eq]
            exact ⟨⟨by simp [isNumberC, hcomp], hcol.1⟩, hcol.2⟩
          have hval : valueC comp = n := by simp [valueC, hcomp]
          rw [if_pos ⟨s, hs, hstar, hkey, by omega, by omega⟩,
            adjNumVals_cons_pos hpred, hval]
          cases hL : mapLookup κ g with
          | none => rfl
          | some v => simp
        · have hpred : (isNumberC comp && decide (comp.position - 1 ≤ κ.2) &&
              decide (κ.2 ≤ comp.position + comp.length)) = false := by
            cases hxx : (isNumberC comp && decide (comp.position - 1 ≤ κ.2) &&
                decide (κ.2 ≤ comp.position + comp.length)) with
            | false => rfl
            | true =>
              exfalso
              rw [Bool.and_eq_true, Bool.and_eq_true, decide_eq_true_eq,
                decide_eq_true_eq] at hxx
              exact hcol ⟨hxx.1.2, hxx.2⟩
          rw [if_neg ?_, adjNumVals_cons_neg hpred]
          rintro ⟨s', hs', hstar', hκ', hc1, hc2⟩
          have hspos' : s'.position = κ.2 := by
            rw [← hκ']
          exact hcol ⟨by omega, by omega⟩
      · rw [if_neg hex]
        rw [if_neg hex]
        rw [if_neg ?_]
        rintro ⟨s', hs', hstar', hκ', _⟩
        have hspos' : s'.position = κ.2 := by
          rw [← hκ']
        exact hex ⟨s', hs', hstar', hspos'⟩
    | .symbol ch =>
      have hpred : (isNumberC comp && decide (comp.position - 1 ≤ κ.2) &&
          decide (κ.2 ≤ comp.position + comp.length)) = false := by
        simp [isNumberC, hcomp]
      rw [adjNumVals_cons_neg hpred]
      by_cases hch : ch = '*'
      · subst hch
        rw [stepP2_star hcomp, mapLookup_insert]
        have hne : ¬ ((lineNum, comp.position) = κ) := by
          intro he
          have h1 : lineNum = κ.1 := by
            rw [← he]
          omega
        rw [if_neg hne]
      · rw [stepP2_sym hcomp hch]

theorem processP2Go_lookup_cur (lineNum : Nat) (prevList cur : List PSC)
    (hcurinv : LineInv lineNum cur)
    (hprevline : ∀ c ∈ prevList, c.line + 1 = lineNum)
    (hprevpair : prevList.Pairwise fun a b => a.position + a.length ≤ b.position)
    (hprevlen : ∀ c ∈ prevList, 1 ≤ c.length) :
    ∀ (rest : List PSC) (i : Nat) (g : GMap) (κ : Nat × Nat),
      κ.1 = lineNum → rest = cur.drop i →
      mapLookup κ (processP2Go lineNum prevList cur i rest g) =
        match findStarAt rest κ.2 with
        | some _ =>
          some (leftVals κ.2 cur ++ rightVals κ.2 cur ++ adjNumVals κ.2 prevList)
        | none => mapLookup κ g := by
  intro rest
  induction rest with
  | nil => intro i g κ _ _; rfl
  | cons comp rest' ih =>
    intro i g κ hκ hdrop
    have hci : cur.get? i = some comp := by
      have h1 : (cur.drop i).head? = some comp := by
        rw [← hdrop]
        rfl
      rw [List.head?_drop] at h1
      rw [List.get?_eq_getElem?]
      exact h1
    have hcomp_mem : comp ∈ cur := by
      have h := (List.get?_eq_some.mp hci)
      obtain ⟨hl, he⟩ := h
      rw [← he]
      simp [List.get_eq_getElem]
    have hdrop' : rest' = cur.drop (i + 1) := by
      have h2 : cur.drop (i + 1) = (cur.drop i).drop 1 := by
        rw [List.drop_drop, Nat.add_comm]
      rw [h2, ← hdrop, List.drop_one, List.tail_cons]
    have hrest_pair : (comp :: rest').Pairwise
        (fun a b => a.position + a.length ≤ b.position) := by
      rw [hdrop]
      exact List.Pairwise.sublist (List.drop_sublist i cur) hcurinv.2
    show mapLookup κ (processP2Go lineNum prevList cur (i + 1) rest'
      (stepP2 lineNum prevList cur i comp g)) = _
    rw [ih (i + 1) _ κ hκ hdrop']
    match hcomp : comp.component with
    | .symbol ch =>
      by_cases hch : ch = '*'
      · subst hch
        by_cases hpos : comp.position = κ.2
        · have hfind : findStarAt (comp :: rest') κ.2 = some comp := by
            unfold findStarAt
            rw [List.find?_cons_of_pos]
            rw [Bool.and_eq_true, decide_eq_true_eq]
            exact ⟨by simp [isStarC, hcomp], hpos⟩
          have hnone : findStarAt rest' κ.2 = none := by
            unfold findStarAt
            rw [List.find?_eq_none]
            intro x hx
            have h1 := (List.pairwise_cons.mp hrest_pair).1 x hx
            have h2 : 1 ≤ comp.length := (hcurinv.1 comp hcomp_mem).2
            simp only [Bool.and_eq_true, decide_eq_true_eq, not_and]
            intro _
            omega
          rw [hnone, hfind]
          have hkey : (lineNum, comp.position) = κ := by
            rw [← hκ, hpos]
          rw [stepP2_star hcomp, mapLookup_insert, if_pos hkey,
            gearLeft_eq hcurinv hci, gearRight_eq hcurinv hci, gearAbove_eq, hpos]
        · have hfind : findStarAt (comp :: rest') κ.2 = findStarAt rest' κ.2 := by
            unfold findStarAt
            rw [List.find?_cons_of_neg]
            simp [hpos]
          rw [hfind, stepP2_star hcomp, mapLookup_insert, if_neg ?_]
          intro he
          exact hpos (congrArg Prod.snd he)
      · have hfind : findStarAt (comp :: rest') κ.2 = findStarAt rest' κ.2 := by
          unfold findStarAt
          rw [List.find?_cons_of_neg]
          simp [isStarC, hcomp, hch]
        rw [hfind, stepP2_sym hcomp hch]
    | .partNumber n =>
      have hfind : findStarAt (comp :: rest') κ.2 = findStarAt rest' κ.2 := by
        unfold findStarAt
        rw [List.find?_cons_of_neg]
        simp [isStarC, hcomp]
      rw [hfind, stepP2_num hcomp,
        pushFoldP2_lookup comp n prevList g κ hprevpair hprevlen, if_neg ?_]
      rintro ⟨pc, hpc, hstar, hκ', _⟩
      have hline : pc.line = κ.1 := by
        rw [← hκ']
      have := hprevline pc hpc
      omega
/-! ## Part Two: key structure of the gear map -/

theorem pushStep_keys (comp : PSC) (n : Int) (pc : PSC) (g : GMap) :
    ((if comp.position - 1 ≤ pc.position ∧
        pc.position ≤ comp.position + comp.length then
        match pc.component with
        | .symbol '*' => mapPush (pc.line, pc.position) n g
        | _ => g
      else g) : GMap).map Prod.fst = g.map Prod.fst := by
  by_cases hr : comp.position - 1 ≤ pc.position ∧
      pc.position ≤ comp.position + comp.length
  · rw [if_pos hr]
    match hpc : pc.component with
    | .symbol ch =>
      by_cases hch : ch = '*'
      · subst hch
        show (mapPush (pc.line, pc.position) n g).map Prod.fst = _
        rw [mapPush_keys]
      · have hstep : (match SchematicComponent.symbol ch with
            | SchematicComponent.symbol '*' => mapPush (pc.line, pc.position) n g
            | _ => g) = g := by
          split
          · rename_i heq
            rw [SchematicComponent.symbol.injEq] at heq
            exact absurd heq hch
          · rfl
        rw [hstep]
    | .partNumber m => rfl
  · rw [if_neg hr]

theorem pushFold_keys (comp : PSC) (n : Int) :
    ∀ (pl : List PSC) (g : GMap),
      ((pl.foldl (fun g pc =>
        if comp.position - 1 ≤ pc.position ∧
            pc.position ≤ comp.position + comp.length then
          match pc.component with
          | .symbol '*' => mapPush (pc.line, pc.position) n g
          | _ => g
        else g) g) : GMap).map Prod.fst = g.map Prod.fst := by
  intro pl
  induction pl with
  | nil => intro g; rfl
  | cons pc rest ih =>
    intro g
    rw [List.foldl_cons, ih, pushStep_keys]

theorem processP2Go_keys (lineNum : Nat) (prevList cur : List PSC) :
    ∀ (rest : List PSC) (i : Nat) (g : GMap),
      (∀ c ∈ rest, isStarC c = true → (lineNum, c.position) ∉ g.map Prod.fst) →
      (rest.Pairwise fun a b => a.position + a.length ≤ b.position) →
      (∀ c ∈ rest, 1 ≤ c.length) →
      (processP2Go lineNum prevList cur i rest g).map Prod.fst =
        g.map Prod.fst ++ (rest.filter isStarC).map fun c => (lineNum, c.position) := by
  intro rest
  induction rest with
  | nil => intro i g _ _ _; simp [processP2Go]
  | cons comp rest' ih =>
    intro i g hfresh hpair hlen
    show (processP2Go lineNum prevList cur (i + 1) rest'
      (stepP2 lineNum prevList cur i comp g)).map Prod.fst = _
    match hcomp : comp.component with
    | .symbol ch =>
      by_cases hch : ch = '*'
      · subst hch
        have hstar : isStarC comp = true := by simp [isStarC, hcomp]
        have hkey_step : stepP2 lineNum prevList cur i comp g =
            g ++ [((lineNum, comp.position),
              (gearLeft cur i comp).toList ++ (gearRight cur i comp).toList ++
                gearAbove comp prevList)] := by
          rw [stepP2_star hcomp]
          exact mapInsert_fresh _ _ g (hfresh comp (by simp) hstar)
        rw [ih (i + 1) _ ?fresh (List.pairwise_cons.mp hpair).2
            (fun c hc => hlen c (by simp [hc]))]
        case fresh =>
          intro c hc hcstar
          rw [hkey_step]
          simp only [List.map_append, List.mem_append]
          rintro (h | h)
          · exact hfresh c (by simp [hc]) hcstar h
          · have hpp : c.position = comp.position := by
              simp at h
              exact h
            have h1 := (List.pairwise_cons.mp hpair).1 c hc
            have h2 : 1 ≤ comp.length := hlen comp (by simp)
            omega
        rw [hkey_step, List.map_append, List.filter_cons_of_pos hstar, List.map_cons]
        simp [List.append_assoc]
      · have hstar : isStarC comp = false := by simp [isStarC, hcomp, hch]
        rw [stepP2_sym hcomp hch]
        rw [ih (i + 1) g (fun c hc => hfresh c (by simp [hc]))
          (List.pairwise_cons.mp hpair).2 (fun c hc => hlen c (by simp [hc]))]
        rw [List.filter_cons_of_neg (by simp [hstar])]
    | .partNumber n =>
      have hstar : isStarC comp = false := by simp [isStarC, hcomp]
      rw [stepP2_num hcomp]
      rw [ih (i + 1) _ ?fresh (List.pairwise_cons.mp hpair).2
        (fun c hc => hlen c (by simp [hc]))]
      case fresh =>
        intro c hc hcstar
        rw [pushFold_keys]
        exact hfresh c (by simp [hc]) hcstar
      rw [pushFold_keys, List.filter_cons_of_neg (by simp [hstar])]

/-! ## Part Two: the master lookup theorem -/

theorem futureCompsP2_cons (k : Nat) (line : List Char) (rest : List (List Char)) :
    futureCompsP2 k (line :: rest) =
      buildLineP2Total k (extract line) ++ futureCompsP2 (k + 1) rest := by
  simp [futureCompsP2, linesCompsP2Go]

theorem futureCompsP2_line_ge :
    ∀ (rest : List (List Char)) (k : Nat), ∀ c ∈ futureCompsP2 k rest, k ≤ c.line := by
  intro rest
  induction rest with
  | nil => intro k c hc; simp [futureCompsP2, linesCompsP2Go] at hc
  | cons line rest' ih =>
    intro k c hc
    rw [futureCompsP2_cons] at hc
    rcases List.mem_append.mp hc with h | h
    · have := ((lineInvP2 k line).1 c h).1
      omega
    · have := ih (k + 1) c h
      omega

theorem futureCompsP2_nodup :
    ∀ (rest : List (List Char)) (k : Nat), (futureCompsP2 k rest).Nodup := by
  intro rest
  induction rest with
  | nil => intro k; simp [futureCompsP2, linesCompsP2Go]
  | cons line rest' ih =>
    intro k
    rw [futureCompsP2_cons, List.nodup_append]
    refine ⟨(lineInvP2 k line).nodup, ih (k + 1), ?_⟩
    intro a ha hb
    have h1 : a.line = k := ((lineInvP2 k line).1 a ha).1
    have h2 : k + 1 ≤ a.line := futureCompsP2_line_ge rest' (k + 1) a hb
    omega

theorem partTwoLoopTotal_lookup :
    ∀ (rest : List (List Char)) (k : Nat) (prev? : Option (List PSC)) (G : GMap),
      PrevInv k prev? →
      (∀ κ' ∈ G.map Prod.fst, κ'.1 + 1 ≤ k) →
      (∀ p : Nat, (k - 1, p) ∈ G.map Prod.fst ↔
        ∃ s ∈ prev?.getD [], isStarC s = true ∧ s.position = p) →
      ∀ κ : Nat × Nat,
        mapLookup κ (partTwoLoopTotal k prev? G rest) =
          if κ.1 + 1 < k then mapLookup κ G
          else if κ.1 + 1 = k then
            (mapLookup κ G).map (· ++ adjNumVals κ.2 (headCompsP2 k rest))
          else gearEntryAt (prev?.getD []) k rest κ := by
  intro rest
  induction rest with
  | nil =>
    intro k prev? G hprev hG1 hG2 κ
    show mapLookup κ G = _
    by_cases h1 : κ.1 + 1 < k
    · rw [if_pos h1]
    · rw [if_neg h1]
      by_cases h2 : κ.1 + 1 = k
      · rw [if_pos h2]
        cases mapLookup κ G <;> simp [headCompsP2, adjNumVals]
      · rw [if_neg h2]
        show mapLookup κ G = none
        apply mapLookup_eq_none
        intro hmem
        have := hG1 κ hmem
        omega
  | cons line rest' ih =>
    intro k prev? G hprev hG1 hG2 κ
    have hinv : LineInv k (buildLineP2Total k (extract line)) := lineInvP2 k line
    set cur := buildLineP2Total k (extract line) with hcur
    have hprevline : ∀ c ∈ prev?.getD [], c.line + 1 = k :=
      fun c hc => (hprev.1 c hc).1
    have hprevpair : (prev?.getD []).Pairwise
        (fun a b => a.position + a.length ≤ b.position) := hprev.2
    have hprevlen : ∀ c ∈ prev?.getD [], 1 ≤ c.length :=
      fun c hc => (hprev.1 c hc).2
    have hfresh : ∀ c ∈ cur, isStarC c = true → (k, c.position) ∉ G.map Prod.fst := by
      intro c hc _ hmem
      have h0 := hG1 (k, c.position) hmem
      have h' : k + 1 ≤ k := h0
      omega
    have hkeysG' : (processLineP2 k prev? cur G).map Prod.fst =
        G.map Prod.fst ++ (cur.filter isStarC).map (fun c => (k, c.position)) := by
      unfold processLineP2
      exact processP2Go_keys k (prev?.getD []) cur cur 0 G hfresh hinv.2
        (fun c hc => (hinv.1 c hc).2)
    have hPrevInv' : PrevInv (k + 1) (some cur) :=
      ⟨fun c hc => ⟨by rw [(hinv.1 c hc).1], (hinv.1 c hc).2⟩, hinv.2⟩
    have hG1' : ∀ κ' ∈ (processLineP2 k prev? cur G).map Prod.fst,
        κ'.1 + 1 ≤ k + 1 := by
      intro κ' hκ'
      rw [hkeysG'] at hκ'
      rcases List.mem_append.mp hκ' with h | h
      · have := hG1 κ' h
        omega
      · obtain ⟨c, hc, he⟩ := List.mem_map.mp h
        rw [← he]
    have hG2' : ∀ p : Nat, ((k + 1) - 1, p) ∈ (processLineP2 k prev? cur G).map Prod.fst ↔
        ∃ s ∈ (some cur).getD [], isStarC s = true ∧ s.position = p := by
      intro p
      rw [hkeysG']
      simp only [Nat.add_sub_cancel, Option.getD_some]
      constructor
      · intro h
        rcases List.mem_append.mp h with h | h
        · have h0 := hG1 (k, p) h
          have h' : k + 1 ≤ k := h0
          omega
        · obtain ⟨c, hc, he⟩ := List.mem_map.mp h
          have hc' := List.mem_filter.mp hc
          have hpp : c.position = p := by
            have := congrArg Prod.snd he
            simpa using this
          exact ⟨c, hc'.1, hc'.2, hpp⟩
      · rintro ⟨s, hs, hstar, hspos⟩
        apply List.mem_append_right
        apply List.mem_map.mpr
        refine ⟨s, List.mem_filter.mpr ⟨hs, hstar⟩, ?_⟩
        rw [hspos]
    show mapLookup κ (partTwoLoopTotal (k + 1) (some cur)
      (processLineP2 k prev? cur G) rest') = _
    rw [ih (k + 1) (some cur) _ hPrevInv' hG1' hG2' κ]
    by_cases hlt : κ.1 + 1 < k
    · rw [if_pos (by omega : κ.1 + 1 < k + 1), if_pos hlt]
      unfold processLineP2
      exact processP2Go_lookup_other k (prev?.getD []) cur hprevline hprevpair hprevlen
        cur 0 G κ (by omega) (by omega)
    · by_cases heq : κ.1 + 1 = k
      · rw [if_pos (by omega : κ.1 + 1 < k + 1), if_neg hlt, if_pos heq]
        have hhead : headCompsP2 k (line :: rest') = cur := rfl
        rw [hhead]
        unfold processLineP2
        rw [processP2Go_lookup_prev k (prev?.getD []) cur hprevline hprevpair hprevlen
          cur 0 G κ heq]
        by_cases hex : ∃ s ∈ prev?.getD [], isStarC s = true ∧ s.position = κ.2
        · rw [if_pos hex]
        · rw [if_neg hex]
          have hnone : mapLookup κ G = none := by
            apply mapLookup_eq_none
            intro hmem
            have hκeq : κ = (k - 1, κ.2) := by
              have h0 : κ.1 = k - 1 := by omega
              rw [← h0]
            rw [hκeq] at hmem
            exact hex ((hG2 κ.2).mp hmem)
          rw [hnone]
          rfl
      · by_cases hcurκ : κ.1 = k
        · rw [if_neg (by omega : ¬ κ.1 + 1 < k + 1), if_pos (by omega : κ.1 + 1 = k + 1)]
          rw [if_neg hlt, if_neg heq]
          unfold processLineP2
          rw [processP2Go_lookup_cur k (prev?.getD []) cur hinv hprevline hprevpair
            hprevlen cur 0 G κ hcurκ (List.drop_zero cur).symm]
          have hentry : gearEntryAt (prev?.getD []) k (line :: rest') κ =
              match findStarAt cur κ.2 with
              | some _ => some (leftVals κ.2 cur ++ rightVals κ.2 cur ++
                  adjNumVals κ.2 (prev?.getD []) ++
                  adjNumVals κ.2 (headCompsP2 (k + 1) rest'))
              | none => none := by
            simp only [gearEntryAt]
            rw [if_pos hcurκ]
          rw [hentry]
          have hnone : mapLookup κ G = none := by
            apply mapLookup_eq_none
            intro hmem
            have h' : κ.1 + 1 ≤ k := hG1 κ hmem
            omega
          rw [hnone]
          cases findStarAt cur κ.2 with
          | none => rfl
          | some g0 => simp [List.append_assoc]
        · rw [if_neg (by omega : ¬ κ.1 + 1 < k + 1),
            if_neg (by omega : ¬ κ.1 + 1 = k + 1)]
          rw [if_neg hlt, if_neg heq]
          have hentry : gearEntryAt (prev?.getD []) k (line :: rest') κ =
              gearEntryAt cur (k + 1) rest' κ := by
            simp only [gearEntryAt]
            rw [if_neg hcurκ]
          rw [hentry]
          rfl

/-! ## Part Two: keys, lookup-of-member and sum reshaping -/

theorem filter_or_perm {α : Type} (A B : α → Bool) :
    ∀ l : List α, (∀ x ∈ l, ¬(A x = true ∧ B x = true)) →
      List.Perm (l.filter fun x => A x || B x) (l.filter A ++ l.filter B) := by
  intro l
  induction l with
  | nil => intro _; simp
  | cons x l ih =>
    intro hdisj
    have ih' := ih fun y hy => hdisj y (by simp [hy])
    by_cases hA : A x = true
    · have hB : B x = false := by
        cases hBx : B x with
        | false => rfl
        | true => exact absurd ⟨hA, hBx⟩ (hdisj x (by simp))
      rw [@List.filter_cons_of_pos _ (fun y => A y || B y) x l (by simp [hA]),
        @List.filter_cons_of_pos _ A x l hA,
        @List.filter_cons_of_neg _ B x l (by simp [hB]), List.cons_append]
      exact ih'.cons x
    · have hA' : A x = false := Bool.eq_false_iff.mpr hA
      by_cases hB : B x = true
      · rw [@List.filter_cons_of_pos _ (fun y => A y || B y) x l (by simp [hB]),
          @List.filter_cons_of_neg _ A x l (by simp [hA']),
          @List.filter_cons_of_pos _ B x l hB]
        exact (ih'.cons x).trans List.perm_middle.symm
      · have hB' : B x = false := Bool.eq_false_iff.mpr hB
        rw [@List.filter_cons_of_neg _ (fun y => A y || B y) x l (by simp [hA', hB']),
          @List.filter_cons_of_neg _ A x l (by simp [hA']),
          @List.filter_cons_of_neg _ B x l (by simp [hB'])]
        exact ih'

theorem partTwoLoopTotal_keys :
    ∀ (rest : List (List Char)) (k : Nat) (prev? : Option (List PSC)) (G : GMap),
      (∀ κ' ∈ G.map Prod.fst, κ'.1 + 1 ≤ k) →
      (partTwoLoopTotal k prev? G rest).map Prod.fst =
        G.map Prod.fst ++
          ((futureCompsP2 k rest).filter isStarC).map fun c => (c.line, c.position) := by
  intro rest
  induction rest with
  | nil => intro k prev? G _; simp [partTwoLoopTotal, futureCompsP2, linesCompsP2Go]
  | cons line rest' ih =>
    intro k prev? G hG1
    have hinv : LineInv k (buildLineP2Total k (extract line)) := lineInvP2 k line
    set cur := buildLineP2Total k (extract line) with hcur
    have hfresh : ∀ c ∈ cur, isStarC c = true → (k, c.position) ∉ G.map Prod.fst := by
      intro c hc _ hmem
      have h' : k + 1 ≤ k := hG1 (k, c.position) hmem
      omega
    have hkeys1 : (processLineP2 k prev? cur G).map Prod.fst =
        G.map Prod.fst ++ (cur.filter isStarC).map (fun c => (k, c.position)) := by
      unfold processLineP2
      exact processP2Go_keys k (prev?.getD []) cur cur 0 G hfresh hinv.2
        (fun c hc => (hinv.1 c hc).2)
    have hG1' : ∀ κ' ∈ (processLineP2 k prev? cur G).map Prod.fst, κ'.1 + 1 ≤ k + 1 := by
      intro κ' hκ'
      rw [hkeys1] at hκ'
      rcases List.mem_append.mp hκ' with h | h
      · have := hG1 κ' h
        omega
      · obtain ⟨c, _hc, he⟩ := List.mem_map.mp h
        rw [← he]
    show (partTwoLoopTotal (k + 1) (some cur) (processLineP2 k prev? cur G) rest').map
      Prod.fst = _
    rw [ih (k + 1) (some cur) _ hG1', hkeys1, futureCompsP2_cons, List.filter_append,
      List.map_append, List.append_assoc]
    congr 2
    exact List.map_congr_left fun c hc => by
      simp [(hinv.1 c (List.mem_of_mem_filter hc)).1]

theorem futureCompsP2_key_inj :
    ∀ (rest : List (List Char)) (k : Nat), ∀ c₁ ∈ futureCompsP2 k rest,
      ∀ c₂ ∈ futureCompsP2 k rest, c₁.line = c₂.line → c₁.position = c₂.position →
        c₁ = c₂ := by
  intro rest
  induction rest with
  | nil => intro k c₁ hc₁; simp [futureCompsP2, linesCompsP2Go] at hc₁
  | cons line rest' ih =>
    intro k c₁ hc₁ c₂ hc₂ hline hpos
    rw [futureCompsP2_cons] at hc₁ hc₂
    have hinv := lineInvP2 k line
    rcases List.mem_append.mp hc₁ with h₁ | h₁ <;>
      rcases List.mem_append.mp hc₂ with h₂ | h₂
    · by_contra hne
      rcases hinv.not_overlap h₁ h₂ hne with h | h
      · have := (hinv.1 c₁ h₁).2
        omega
      · have := (hinv.1 c₂ h₂).2
        omega
    · have e1 : c₁.line = k := (hinv.1 c₁ h₁).1
      have e2 : k + 1 ≤ c₂.line := futureCompsP2_line_ge rest' (k + 1) c₂ h₂
      omega
    · have e1 : c₂.line = k := (hinv.1 c₂ h₂).1
      have e2 : k + 1 ≤ c₁.line := futureCompsP2_line_ge rest' (k + 1) c₁ h₁
      omega
    · exact ih (k + 1) c₁ h₁ c₂ h₂ hline hpos

theorem mapLookup_of_mem :
    ∀ (M : GMap), (M.map Prod.fst).Nodup → ∀ kv ∈ M, mapLookup kv.1 M = some kv.2 := by
  intro M
  induction M with
  | nil => intro _ kv hkv; simp at hkv
  | cons e M' ih =>
    obtain ⟨κ₀, v₀⟩ := e
    intro hnd kv hkv
    rw [List.map_cons, List.nodup_cons] at hnd
    rcases List.mem_cons.mp hkv with rfl | hmem
    · simp [mapLookup]
    · have hne : ¬ κ₀ = kv.1 := by
        intro he
        apply hnd.1
        rw [he]
        exact List.mem_map.mpr ⟨kv, hmem, rfl⟩
      show (if κ₀ = kv.1 then some v₀ else mapLookup kv.1 M') = some kv.2
      rw [if_neg hne]
      exact ih hnd.2 kv hmem

theorem gearFold_sum :
    ∀ (M : GMap) (acc : List Int),
      (M.foldl (fun acc kv =>
        if kv.2.length = 2 then acc ++ [kv.2.foldl (· * ·) 1] else acc) acc).sum =
        acc.sum + (M.map fun kv => entryScore (some kv.2)).sum := by
  intro M
  induction M with
  | nil => intro acc; simp
  | cons kv M' ih =>
    intro acc
    rw [List.foldl_cons, ih, List.map_cons, List.sum_cons]
    by_cases h : kv.2.length = 2
    · rw [if_pos h]
      simp [entryScore, h, List.sum_append]
      omega
    · rw [if_neg h]
      simp [entryScore, h]

theorem gearRatioSum_eq_map (M : GMap) :
    gearRatioSum M = (M.map fun kv => entryScore (some kv.2)).sum := by
  unfold gearRatioSum
  rw [gearFold_sum]
  simp

/-! ## Part Two: the per-gear entry against the declarative adjacency -/

theorem gearEntryAt_cons (prevList : List PSC) (k : Nat) (line : List Char)
    (rest' : List (List Char)) (κ : Nat × Nat) :
    gearEntryAt prevList k (line :: rest') κ =
      if κ.1 = k then
        match findStarAt (buildLineP2Total k (extract line)) κ.2 with
        | some _ => some (leftVals κ.2 (buildLineP2Total k (extract line)) ++
            rightVals κ.2 (buildLineP2Total k (extract line)) ++
            adjNumVals κ.2 prevList ++ adjNumVals κ.2 (headCompsP2 (k + 1) rest'))
        | none => none
      else gearEntryAt (buildLineP2Total k (extract line)) (k + 1) rest' κ := rfl

theorem gearEntryAt_spec :
    ∀ (rest : List (List Char)) (k : Nat) (prevList : List PSC),
      (∀ c ∈ prevList, c.line + 1 = k ∧ 1 ≤ c.length) →
      ∀ g ∈ futureCompsP2 k rest, isStarC g = true →
        ∃ L, gearEntryAt prevList k rest (g.line, g.position) = some L ∧
          List.Perm L
            (((prevList ++ futureCompsP2 k rest).filter fun c =>
              isNumberC c && specFootprintAdj c g).map valueC) := by
  intro rest
  induction rest with
  | nil =>
    intro k prevList _ g hg
    simp [futureCompsP2, linesCompsP2Go] at hg
  | cons line rest' ih =>
    intro k prevList hprev g hg hstar
    have hinv : LineInv k (buildLineP2Total k (extract line)) := lineInvP2 k line
    set cur := buildLineP2Total k (extract line) with hcur
    rw [futureCompsP2_cons] at hg
    rw [futureCompsP2_cons]
    rcases List.mem_append.mp hg with hgc | hgf
    · -- the gear lies on the line being tokenized
      have hgline : g.line = k := (hinv.1 g hgc).1
      obtain ⟨ch, hgch⟩ : ∃ ch, g.component = .symbol ch := by
        unfold isStarC at hstar
        match hx : g.component with
        | .symbol ch => exact ⟨ch, rfl⟩
        | .partNumber n => rw [hx] at hstar; exact absurd hstar (by simp)
      have hgsym : isSymbolC g = true := by simp [isSymbolC, hgch]
      have hfind : ∃ s, findStarAt cur g.position = some s := by
        rw [← Option.isSome_iff_exists]
        unfold findStarAt
        rw [List.find?_isSome]
        exact ⟨g, hgc, by simp [hstar]⟩
      obtain ⟨s, hs⟩ := hfind
      have hprevEq : (prevList.filter fun c =>
          isNumberC c && specFootprintAdj c g).map valueC =
          adjNumVals g.position prevList := by
        unfold adjNumVals
        refine congrArg (List.map valueC) (List.filter_congr ?_)
        intro c hc
        have h1 : c.line + 1 = k := (hprev c hc).1
        have h3 : c.line - 1 ≤ g.line := by omega
        have h4 : g.line ≤ c.line + 1 := by omega
        simp only [specFootprintAdj, decide_eq_true h3, decide_eq_true h4,
          Bool.and_true, Bool.and_assoc]
      have hfutEq : ((futureCompsP2 (k + 1) rest').filter fun c =>
          isNumberC c && specFootprintAdj c g).map valueC =
          adjNumVals g.position (headCompsP2 (k + 1) rest') := by
        match rest' with
        | [] => simp [futureCompsP2, linesCompsP2Go, headCompsP2, adjNumVals]
        | line2 :: rest'' =>
          rw [futureCompsP2_cons, List.filter_append, List.map_append]
          have h2 : (futureCompsP2 (k + 2) rest'').filter
              (fun c => isNumberC c && specFootprintAdj c g) = [] := by
            rw [List.filter_eq_nil_iff]
            intro c hc
            have hcl : k + 2 ≤ c.line := futureCompsP2_line_ge rest'' (k + 2) c hc
            simp only [specFootprintAdj, Bool.and_eq_true, decide_eq_true_eq]
            rintro ⟨_, ⟨⟨_, _⟩, hp3⟩, _⟩
            omega
          rw [h2, List.map_nil, List.append_nil]
          show ((buildLineP2Total (k + 1) (extract line2)).filter fun c =>
            isNumberC c && specFootprintAdj c g).map valueC = _
          unfold adjNumVals headCompsP2
          refine congrArg (List.map valueC) (List.filter_congr ?_)
          intro c hc
          have h1 : c.line = k + 1 := ((lineInvP2 (k + 1) line2).1 c hc).1
          have h3 : c.line - 1 ≤ g.line := by omega
          have h4 : g.line ≤ c.line + 1 := by omega
          simp only [specFootprintAdj, decide_eq_true h3, decide_eq_true h4,
            Bool.and_true, Bool.and_assoc]
      have hcurEq : ∀ c ∈ cur, (isNumberC c && specFootprintAdj c g) =
          ((isNumberC c && decide (c.position + c.length = g.position)) ||
            (isNumberC c && decide (c.position = g.position + 1))) := by
        intro c hc
        by_cases hnum : isNumberC c = true
        · have hcl : c.line = k := (hinv.1 c hc).1
          have h3 : c.line - 1 ≤ g.line := by omega
          have h4 : g.line ≤ c.line + 1 := by omega
          have hiff := touch_iff_colAdj hinv hc hgc hnum hgsym
          have hml : colAdjP c g.position ↔
              (c.position + c.length = g.position ∨ c.position = g.position + 1) := by
            constructor
            · intro hcol
              rcases hiff.mpr hcol with h | h
              · right; omega
              · left; omega
            · rintro (h | h)
              · exact hiff.mp (Or.inr (by omega))
              · exact hiff.mp (Or.inl (by omega))
          simp only [hnum, Bool.true_and, specFootprintAdj, decide_eq_true h3,
            decide_eq_true h4, Bool.and_true]
          rw [← Bool.decide_and, ← Bool.decide_or, decide_eq_decide]
          exact hml
        · have hnum' : isNumberC c = false := Bool.eq_false_iff.mpr hnum
          simp [hnum']
      have hdisj : ∀ x ∈ cur,
          ¬((isNumberC x && decide (x.position + x.length = g.position)) = true ∧
            (isNumberC x && decide (x.position = g.position + 1)) = true) := by
        rintro x _hx ⟨hA, hB⟩
        rw [Bool.and_eq_true, decide_eq_true_eq] at hA hB
        omega
      have hsplit := filter_or_perm
        (fun x => isNumberC x && decide (x.position + x.length = g.position))
        (fun x => isNumberC x && decide (x.position = g.position + 1)) cur hdisj
      have hcurPerm : List.Perm
          ((cur.filter fun c => isNumberC c && specFootprintAdj c g).map valueC)
          (leftVals g.position cur ++ rightVals g.position cur) := by
        rw [List.filter_congr hcurEq]
        have hm := hsplit.map valueC
        rw [List.map_append] at hm
        exact hm
      refine ⟨leftVals g.position cur ++ rightVals g.position cur ++
        adjNumVals g.position prevList ++
        adjNumVals g.position (headCompsP2 (k + 1) rest'), ?_, ?_⟩
      · rw [gearEntryAt_cons]
        have hpos : ((g.line, g.position).1 = k) := hgline
        rw [if_pos hpos]
        have hs' : findStarAt (buildLineP2Total k (extract line))
            ((g.line, g.position).2) = some s := hs
        rw [hs']
      · rw [List.filter_append, List.filter_append, List.map_append, List.map_append,
          hprevEq, hfutEq]
        refine (List.perm_append_comm.append_right _).trans ?_
        rw [List.append_assoc]
        exact List.Perm.append_left _ (hcurPerm.symm.append_right _)
    · -- the gear lies on a later line
      have hgline : k + 1 ≤ g.line := futureCompsP2_line_ge rest' (k + 1) g hgf
      obtain ⟨L, hL, hperm⟩ := ih (k + 1) cur
        (fun c hc => ⟨by rw [(hinv.1 c hc).1], (hinv.1 c hc).2⟩) g hgf hstar
      have hpnil : prevList.filter (fun c => isNumberC c && specFootprintAdj c g) = [] := by
        rw [List.filter_eq_nil_iff]
        intro c hc
        have h1 : c.line + 1 = k := (hprev c hc).1
        simp only [specFootprintAdj, Bool.and_eq_true, decide_eq_true_eq]
        rintro ⟨_, ⟨⟨_, _⟩, _⟩, hp4⟩
        omega
      refine ⟨L, ?_, ?_⟩
      · rw [gearEntryAt_cons]
        have hne0 : ¬ g.line = k := by omega
        have hne : ¬ ((g.line, g.position).1 = k) := hne0
        rw [if_neg hne]
        exact hL
      · rw [List.filter_append, hpnil, List.nil_append]
        exact hperm

/-! ## Part Two: the solver against the declarative sum -/

theorem partTwo_eq_spec (ls : List (List Char)) :
    PartTwo.getSolution ls = .ok (specPartTwoSum ls) := by
  have hsum : gearRatioSum (partTwoLoopTotal 0 none [] ls) = specPartTwoSum ls := by
    set M := partTwoLoopTotal 0 none [] ls with hM
    have hkeys : M.map Prod.fst =
        ((futureCompsP2 0 ls).filter isStarC).map fun c => (c.line, c.position) := by
      rw [hM, partTwoLoopTotal_keys ls 0 none [] (by intro κ' h; simp at h)]
      simp
    have hnodup : (M.map Prod.fst).Nodup := by
      rw [hkeys]
      refine List.Nodup.map_on ?_ (List.Nodup.filter _ (futureCompsP2_nodup ls 0))
      intro x hx y hy hxy
      have hx' := List.mem_of_mem_filter hx
      have hy' := List.mem_of_mem_filter hy
      have h1 : x.line = y.line := congrArg Prod.fst hxy
      have h2 : x.position = y.position := congrArg Prod.snd hxy
      exact futureCompsP2_key_inj ls 0 x hx' y hy' h1 h2
    have hlook : ∀ κ, mapLookup κ M = gearEntryAt [] 0 ls κ := by
      intro κ
      rw [hM, partTwoLoopTotal_lookup ls 0 none [] ⟨by simp, by simp⟩
        (by intro κ' h; simp at h) (by intro p; simp) κ]
      rw [if_neg (by omega), if_neg (by omega)]
      rfl
    rw [gearRatioSum_eq_map]
    have hmap1 : (M.map fun kv => entryScore (some kv.2)) =
        M.map fun kv => entryScore (mapLookup kv.1 M) := by
      refine List.map_congr_left ?_
      intro kv hkv
      rw [mapLookup_of_mem M hnodup kv hkv]
    have hmap2 : (M.map fun kv => entryScore (mapLookup kv.1 M)) =
        (M.map Prod.fst).map fun κ => entryScore (mapLookup κ M) := by
      rw [List.map_map]
      rfl
    rw [hmap1, hmap2, hkeys, List.map_map]
    unfold specPartTwoSum
    rw [show allCompsP2 ls = futureCompsP2 0 ls from rfl]
    refine congrArg List.sum (List.map_congr_left ?_)
    intro g hg
    have hgmem : g ∈ futureCompsP2 0 ls := List.mem_of_mem_filter hg
    have hgstar : isStarC g = true := List.of_mem_filter hg
    obtain ⟨L, hL, hperm⟩ := gearEntryAt_spec ls 0 []
      (by intro c hc; simp at hc) g hgmem hgstar
    rw [List.nil_append] at hperm
    have hperm' : List.Perm L ((specGearAdjNums (futureCompsP2 0 ls) g).map valueC) :=
      hperm
    show entryScore (mapLookup (g.line, g.position) M) = _
    rw [hlook (g.line, g.position), hL]
    have hlen : L.length = (specGearAdjNums (futureCompsP2 0 ls) g).length := by
      rw [hperm'.length_eq, List.length_map]
    rw [show entryScore (some L) =
      if L.length = 2 then L.foldl (· * ·) 1 else 0 from rfl]
    by_cases h2 : (specGearAdjNums (futureCompsP2 0 ls) g).length = 2
    · have hL2 : L.length = 2 := by rw [hlen]; exact h2
      rw [if_pos hL2, if_pos h2]
      rw [← List.prod_eq_foldl, ← List.prod_eq_foldl]
      exact hperm'.prod_eq
    · have hL2 : ¬ L.length = 2 := by rw [hlen]; exact h2
      rw [if_neg hL2, if_neg h2]
  show (match partTwoLoop 0 none [] ls with
    | .error e => Except.error e
    | .ok gears => Except.ok (gearRatioSum gears)) = Except.ok (specPartTwoSum ls)
  rw [partTwoLoop_ok ls 0 none []]
  show Except.ok (gearRatioSum (partTwoLoopTotal 0 none [] ls)) = _
  rw [hsum]

/-! ## Non-negativity of the computed values -/

theorem parseI32_nonneg {s : List Char} {n : Int} (h : parseI32 s = some n) : 0 ≤ n := by
  unfold parseI32 at h
  by_cases hc : s ≠ [] ∧ s.all Char.isDigit ∧ digitsToNat s ≤ 2147483647
  · rw [if_pos hc] at h
    have he : (digitsToNat s : Int) = n := Option.some.inj h
    omega
  · rw [if_neg hc] at h
    exact absurd h (by simp)

theorem buildLineP1_value_nonneg (k : Nat) (line : List Char) :
    ∀ c ∈ buildLineP1 k (extract line), 0 ≤ valueC c := by
  intro c hc
  obtain ⟨part, _hdot, _hslice, _hlen, hcomp⟩ :=
    buildLineP1Go_span k (extract line) 0 line
      (by rw [List.drop_zero, extract_flatten]) c hc
  cases hp : parseI32 part with
  | none => simp [valueC, hcomp, buildCompP1, hp]
  | some n =>
    have hn := parseI32_nonneg hp
    simpa [valueC, hcomp, buildCompP1, hp] using hn

theorem buildLineP2Total_value_nonneg (k : Nat) (line : List Char) :
    ∀ c ∈ buildLineP2Total k (extract line), 0 ≤ valueC c := by
  intro c hc
  obtain ⟨part, _hdot, _hslice, _hlen, hcomp⟩ :=
    buildLineP2TotalGo_span k (extract line) 0 line
      (by rw [List.drop_zero, extract_flatten]) c hc
  cases hp : parseI32 part with
  | none => simp [valueC, hcomp, buildCompP2Total, hp]
  | some n =>
    have hn := parseI32_nonneg hp
    simpa [valueC, hcomp, buildCompP2Total, hp] using hn

theorem futureCompsP1_value_nonneg :
    ∀ (rest : List (List Char)) (k : Nat), ∀ c ∈ futureCompsP1 k rest, 0 ≤ valueC c := by
  intro rest
  induction rest with
  | nil => intro k c hc; simp [futureCompsP1, linesCompsP1Go] at hc
  | cons line rest' ih =>
    intro k c hc
    rw [futureCompsP1_cons] at hc
    rcases List.mem_append.mp hc with h | h
    · exact buildLineP1_value_nonneg k line c h
    · exact ih (k + 1) c h

theorem futureCompsP2_value_nonneg :
    ∀ (rest : List (List Char)) (k : Nat), ∀ c ∈ futureCompsP2 k rest, 0 ≤ valueC c := by
  intro rest
  induction rest with
  | nil => intro k c hc; simp [futureCompsP2, linesCompsP2Go] at hc
  | cons line rest' ih =>
    intro k c hc
    rw [futureCompsP2_cons] at hc
    rcases List.mem_append.mp hc with h | h
    · exact buildLineP2Total_value_nonneg k line c h
    · exact ih (k + 1) c h

theorem specPartOneSum_nonneg (ls : List (List Char)) : 0 ≤ specPartOneSum ls := by
  unfold specPartOneSum
  apply List.sum_nonneg
  intro x hx
  obtain ⟨c, hc, rfl⟩ := List.mem_map.mp hx
  exact futureCompsP1_value_nonneg ls 0 c (List.mem_of_mem_filter hc)

theorem specPartTwoSum_nonneg (ls : List (List Char)) : 0 ≤ specPartTwoSum ls := by
  unfold specPartTwoSum
  apply List.sum_nonneg
  intro x hx
  obtain ⟨g, _hgmem, rfl⟩ := List.mem_map.mp hx
  by_cases h2 : (specGearAdjNums (allCompsP2 ls) g).length = 2
  · rw [if_pos h2, ← List.prod_eq_foldl]
    apply List.prod_nonneg
    intro y hy
    obtain ⟨c, hc, rfl⟩ := List.mem_map.mp hy
    exact futureCompsP2_value_nonneg ls 0 c (List.mem_of_mem_filter hc)
  · rw [if_neg h2]

/-! ## The claims -/

/-- Claim C1: on the canonical 10-line example schematic, Part One returns
Ok 4361 and Part Two returns Ok 467835. -/
theorem claim_C1 :
    PartOne.getSolution exampleLines = .ok 4361 ∧
    PartTwo.getSolution exampleLines = .ok 467835 := ⟨rfl, rfl⟩

/-- Claim C2 (amended): neither solver ever reports a parse error — each
returns Ok on every input; a digit run that fails to parse as i32 is
silently classified as a symbol component (a star in Part One, the run's
first character in Part Two) instead of aborting the solve. -/
theorem claim_C2 (ls : List (List Char)) :
    (∃ n, PartOne.getSolution ls = .ok n) ∧
    (∃ n, PartTwo.getSolution ls = .ok n) ∧
    (∀ part : List Char, part ≠ [] → parseI32 part = none →
      buildCompP1 part = .symbol '*' ∧
        buildCompP2 part = .ok (.symbol (part.headD '?'))) := by
  refine ⟨⟨(collectNums (partOneLoop 0 none [] ls)).sum, rfl⟩,
    ⟨gearRatioSum (partTwoLoopTotal 0 none [] ls), ?_⟩, ?_⟩
  · show (match partTwoLoop 0 none [] ls with
      | .error e => Except.error e
      | .ok gears => Except.ok (gearRatioSum gears)) = _
    rw [partTwoLoop_ok ls 0 none []]
  · intro part hne hp
    constructor
    · unfold buildCompP1
      rw [hp]
      rfl
    · match part, hne, hp with
      | c :: rest, _, hp =>
        show Except.ok ((parseI32 (c :: rest)).elim
          (SchematicComponent.symbol c) .partNumber) = _
        rw [hp]
        rfl

/-- Claim C2 counterexample: the single line of ten nines is one digit run
that does not fit i32 (its parse fails), yet both solvers return Ok 0
instead of propagating an error. -/
theorem claim_C2_counterexample :
    (['9', '9', '9', '9', '9', '9', '9', '9', '9', '9'] ∈
        extract ['9', '9', '9', '9', '9', '9', '9', '9', '9', '9'] ∧
      parseI32 ['9', '9', '9', '9', '9', '9', '9', '9', '9', '9'] = none) ∧
    PartOne.getSolution [['9', '9', '9', '9', '9', '9', '9', '9', '9', '9']] = .ok 0 ∧
    PartTwo.getSolution [['9', '9', '9', '9', '9', '9', '9', '9', '9', '9']] = .ok 0 :=
  ⟨⟨by decide, by decide⟩, rfl, rfl⟩

/-- Claim C2 witness: the amended statement applied to the overflowing
digit run of ten nines. -/
theorem claim_C2_witness :
    buildCompP1 ['9', '9', '9', '9', '9', '9', '9', '9', '9', '9'] = .symbol '*' ∧
    buildCompP2 ['9', '9', '9', '9', '9', '9', '9', '9', '9', '9'] =
      .ok (.symbol (['9', '9', '9', '9', '9', '9', '9', '9', '9', '9'].headD '?')) :=
  (claim_C2 []).2.2 ['9', '9', '9', '9', '9', '9', '9', '9', '9', '9']
    (by decide) (by decide)

/-- Claim C3: Part One returns Ok of the sum, over the distinct number
components whose adjacency footprint (lines L-1..L+1, columns C-1..C+N,
inclusive) contains at least one symbol component, of their values, each
counted exactly once. -/
theorem claim_C3 (ls : List (List Char)) :
    PartOne.getSolution ls = .ok (specPartOneSum ls) := partOne_eq_spec ls

/-- Claim C4: Part Two returns Ok of the sum, over the star components, of
the product of the adjacent numbers' values when the count of adjacent
number components is exactly 2, and 0 otherwise. -/
theorem claim_C4 (ls : List (List Char)) :
    PartTwo.getSolution ls = .ok (specPartTwoSum ls) := partTwo_eq_spec ls

/-- Claim C5 (amended): concatenating the tokenizer's substrings in order
reproduces the line; the empty line yields the empty sequence; a nonempty
all-digit or all-dot line yields a single-element sequence, as does a line
of one symbol character — but a line of two or more symbol characters is a
line of a single run type that yields one substring per character, not a
single-element sequence. -/
theorem claim_C5 (s : List Char) :
    (extract s).flatten = s ∧
    (s = [] → extract s = []) ∧
    (s ≠ [] → (∀ ch ∈ s, isNumericChar ch = true) → extract s = [s]) ∧
    (s ≠ [] → (∀ ch ∈ s, ch = '.') → extract s = [s]) ∧
    (∀ ch : Char, isNumericChar ch = false → ¬ ch = '.' → extract [ch] = [[ch]]) := by
  refine ⟨extract_flatten s, ?_, fun h1 h2 => extract_all_digits h1 h2,
    fun h1 h2 => extract_all_dots h1 h2, fun ch h1 h2 => extract_single_symbol h1 h2⟩
  intro h
  subst h
  rfl

/-- Claim C5 counterexample: the line of two stars consists entirely of one
run type, yet the tokenizer returns a two-element sequence. -/
theorem claim_C5_counterexample :
    (∀ ch ∈ ['*', '*'], isNumericChar ch = false ∧ ¬ ch = '.') ∧
    extract ['*', '*'] = [['*'], ['*']] ∧ (extract ['*', '*']).length ≠ 1 := by
  decide

/-- Claim C5 witness: the single-token cases applied to an all-digit line
and an all-dot line. -/
theorem claim_C5_witness :
    extract ['4', '2'] = [['4', '2']] ∧ extract ['.', '.'] = [['.', '.']] :=
  ⟨(claim_C5 ['4', '2']).2.2.1 (by decide) (by decide),
   (claim_C5 ['.', '.']).2.2.2.1 (by decide) (by decide)⟩

/-- Claim C6: boundary safety of the adjacency checks: a component preceded
by another component of its line sits at a positive column, so the
subtraction of one from its position in the same-line left checks never
underflows; and with no preceding component the left checks access nothing
(checkLeft is false and gearLeft is none at index 0). -/
theorem claim_C6 (k : Nat) (line : List Char) (i : Nat) (comp : PSC) :
    ((buildLineP1 k (extract line)).get? i = some comp → 0 < i →
      0 < comp.position) ∧
    ((buildLineP2Total k (extract line)).get? i = some comp → 0 < i →
      0 < comp.position) ∧
    checkLeft (buildLineP1 k (extract line)) 0 comp = false ∧
    gearLeft (buildLineP2Total k (extract line)) 0 comp = none := by
  refine ⟨fun hc hi => (lineInvP1 k line).pos_pos hc hi,
    fun hc hi => (lineInvP2 k line).pos_pos hc hi, ?_, ?_⟩
  · simp [checkLeft]
  · simp [gearLeft]

/-- Claim C6 witness: the positive-column fact applied to the symbol
component following a number at column 0. -/
theorem claim_C6_witness :
    0 < ({ component := .symbol '*', line := 0, position := 1, length := 1 } :
      PSC).position :=
  (claim_C6 0 ['1', '*'] 1
      { component := .symbol '*', line := 0, position := 1, length := 1 }).1
    (by decide) (by decide)

/-- Claim C7: within one line each solver's component list has strictly
increasing start columns and pairwise disjoint spans, and no component's
span holds a dot character. -/
theorem claim_C7 (k : Nat) (line : List Char) :
    ((buildLineP1 k (extract line)).Pairwise fun a b =>
      a.position < b.position ∧ a.position + a.length ≤ b.position) ∧
    (∀ c ∈ buildLineP1 k (extract line),
      '.' ∉ slice line c.position (c.position + c.length)) ∧
    ((buildLineP2Total k (extract line)).Pairwise fun a b =>
      a.position < b.position ∧ a.position + a.length ≤ b.position) ∧
    (∀ c ∈ buildLineP2Total k (extract line),
      '.' ∉ slice line c.position (c.position + c.length)) := by
  refine ⟨?_, ?_, ?_, ?_⟩
  · refine ((lineInvP1 k line).2).imp_of_mem ?_
    intro a b ha _hb hab
    have hlen : 1 ≤ a.length := ((lineInvP1 k line).1 a ha).2
    exact ⟨by omega, hab⟩
  · intro c hc
    obtain ⟨part, hdot, hslice, _, _⟩ := buildLineP1Go_span k (extract line) 0 line
      (by rw [List.drop_zero, extract_flatten]) c hc
    rw [hslice]
    simp at hdot
    exact hdot
  · refine ((lineInvP2 k line).2).imp_of_mem ?_
    intro a b ha _hb hab
    have hlen : 1 ≤ a.length := ((lineInvP2 k line).1 a ha).2
    exact ⟨by omega, hab⟩
  · intro c hc
    obtain ⟨part, hdot, hslice, _, _⟩ := buildLineP2TotalGo_span k (extract line) 0 line
      (by rw [List.drop_zero, extract_flatten]) c hc
    rw [hslice]
    simp at hdot
    exact hdot

/-- Claim C7 witness: the no-dot fact applied to the number component of a
line with a dot between its tokens. -/
theorem claim_C7_witness :
    '.' ∉ slice ['1', '.', '*']
      ({ component := .partNumber 1, line := 0, position := 0, length := 1 } :
        PSC).position
      (({ component := .partNumber 1, line := 0, position := 0, length := 1 } :
        PSC).position +
       ({ component := .partNumber 1, line := 0, position := 0, length := 1 } :
        PSC).length) :=
  (claim_C7 0 ['1', '.', '*']).2.1
    { component := .partNumber 1, line := 0, position := 0, length := 1 } (by decide)

/-- Claim C8: the two solvers' component constructions diverge on symbol
tokens — Part One turns every non-digit single-character token into the
star symbol regardless of its character, Part Two keeps the actual
character — while the two agree on digit runs that parse as i32. -/
theorem claim_C8 :
    (∀ ch : Char, isNumericChar ch = false → ¬ ch = '.' →
      buildCompP1 [ch] = .symbol '*' ∧ buildCompP2 [ch] = .ok (.symbol ch)) ∧
    (∀ (part : List Char) (n : Int), parseI32 part = some n →
      buildCompP1 part = .partNumber n ∧ buildCompP2 part = .ok (.partNumber n)) := by
  constructor
  · intro ch h1 _h2
    have hcond : ¬([ch] ≠ [] ∧ [ch].all Char.isDigit ∧
        digitsToNat [ch] ≤ 2147483647) := by
      rintro ⟨_, hall, _⟩
      have hd : Char.isDigit ch = true := by simpa using hall
      rw [show isNumericChar ch = Char.isDigit ch from rfl, hd] at h1
      exact absurd h1 (by simp)
    have hp : parseI32 [ch] = none := by
      unfold parseI32
      rw [if_neg hcond]
    constructor
    · unfold buildCompP1
      rw [hp]
      rfl
    · show Except.ok ((parseI32 [ch]).elim
        (SchematicComponent.symbol ch) .partNumber) = _
      rw [hp]
      rfl
  · intro part n hp
    have hne : part ≠ [] := by
      intro h
      rw [h] at hp
      simp [parseI32] at hp
    constructor
    · unfold buildCompP1
      rw [hp]
      rfl
    · match part, hne, hp with
      | c :: rest, _, hp =>
        show Except.ok ((parseI32 (c :: rest)).elim
          (SchematicComponent.symbol c) .partNumber) = _
        rw [hp]
        rfl

/-- Claim C8 witness: the divergence applied to a hash character and the
agreement applied to the digit run 467. -/
theorem claim_C8_witness :
    (buildCompP1 ['#'] = .symbol '*' ∧ buildCompP2 ['#'] = .ok (.symbol '#')) ∧
    (buildCompP1 ['4', '6', '7'] = .partNumber 467 ∧
      buildCompP2 ['4', '6', '7'] = .ok (.partNumber 467)) :=
  ⟨claim_C8.1 '#' (by decide) (by decide),
   claim_C8.2 ['4', '6', '7'] 467 (by decide)⟩

/-- Claim C9: whenever a solver returns Ok n, the integer n is
non-negative: Part One's answer is a sum of non-negative part-number values
and Part Two's a sum of products of pairs of non-negative values. -/
theorem claim_C9 (ls : List (List Char)) (n : Int) :
    (PartOne.getSolution ls = .ok n → 0 ≤ n) ∧
    (PartTwo.getSolution ls = .ok n → 0 ≤ n) := by
  constructor
  · intro h
    have he : specPartOneSum ls = n :=
      Except.ok.inj ((partOne_eq_spec ls).symm.trans h)
    rw [← he]
    exact specPartOneSum_nonneg ls
  · intro h
    have he : specPartTwoSum ls = n :=
      Except.ok.inj ((partTwo_eq_spec ls).symm.trans h)
    rw [← he]
    exact specPartTwoSum_nonneg ls

/-- Claim C9 witness: non-negativity applied to both solvers' answers on
the example schematic. -/
theorem claim_C9_witness : (0 : Int) ≤ 4361 ∧ (0 : Int) ≤ 467835 :=
  ⟨(claim_C9 exampleLines 4361).1 rfl, (claim_C9 exampleLines 467835).2 rfl⟩

/-- Claim C10: in Part Two, every star's final collection holds each
adjacent number exactly once: its length equals the number of distinct
number components whose footprint contains the star, so the length-2 test
counts distinct adjacent numbers and never duplicates. -/
theorem claim_C10 (ls : List (List Char)) (g : PSC)
    (hg : g ∈ allCompsP2 ls) (hstar : isStarC g = true) :
    ∃ L, mapLookup (g.line, g.position) (partTwoLoopTotal 0 none [] ls) = some L ∧
      L.length = (specGearAdjNums (allCompsP2 ls) g).length := by
  obtain ⟨L, hL, hperm⟩ := gearEntryAt_spec ls 0 []
    (by intro c hc; simp at hc) g hg hstar
  refine ⟨L, ?_, ?_⟩
  · rw [partTwoLoopTotal_lookup ls 0 none [] ⟨by simp, by simp⟩
      (by intro κ' h; simp at h) (by intro p; simp) (g.line, g.position)]
    rw [if_neg (by omega), if_neg (by omega)]
    exact hL
  · rw [List.nil_append] at hperm
    rw [hperm.length_eq, List.length_map]
    rfl

/-- Claim C10 witness: the exactly-once property applied to the star at
line 1, column 3 of the example schematic. -/
theorem claim_C10_witness :
    ∃ L, mapLookup
        (({ component := .symbol '*', line := 1, position := 3, length := 1 } :
            PSC).line,
         ({ component := .symbol '*', line := 1, position := 3, length := 1 } :
            PSC).position)
        (partTwoLoopTotal 0 none [] exampleLines) = some L ∧
      L.length = (specGearAdjNums (allCompsP2 exampleLines)
        { component := .symbol '*', line := 1, position := 3, length := 1 }).length :=
  claim_C10 exampleLines
    { component := .symbol '*', line := 1, position := 3, length := 1 }
    (by decide) (by decide)


end GearRatiosDay
